import Mathlib

/-!
Verification development for the http-proxy repository (fidiego/http-proxy).

Shallow embedding of the traffic-plane core: the flow data model
(pkg/proxy/options.go, which also holds flow.go's content), the body-capture
helpers and engine callbacks (pkg/proxy/engine.go), the FlowStore ring buffer
(pkg/proxy/flow_store.go), the Router (pkg/proxy/router.go), Replay
(pkg/proxy/engine.go), and the filter expression compiler
(pkg/filter/filter.go).

Conventions:
- Go byte slices are `List Nat` (one Nat per byte); Go strings that are only
  compared/concatenated stay `String`, while the filter parser works on
  `List Char` with byte positions modelled as list indices.
- Go maps are total functions into `Option`; `http.Header` is an association
  list (a multimap), whose `Clone` is the identity on the value.
- Mutation is explicit state passing.  Fallible Go code returns `Except`.
- Wall-clock instants are opaque `Nat` parameters (`now`).
- The pub/sub side of the store (subscribers, broadcast) only sends
  notifications and never touches the ring or index; it is omitted from the
  store state, as none of the verified claims mention events.
-/

namespace HttpProxy

/-- One byte of a Go `[]byte`. -/
abbrev Byte := Nat

/-- Embeds Go `http.Header` (`map[string][]string`), as a finite multimap.
`Header.Clone` deep-copies in Go; on values it is the identity. -/
abbrev Header := List (String × List String)

/-- Embeds `FlowState` from pkg/proxy (flow part of options.go). -/
inductive FlowState where
  | active
  | intercepted
  | complete
  | error
deriving DecidableEq, Repr

/-- Embeds `CapturedRequest` from pkg/proxy. -/
structure CapturedRequest where
  Method : String
  URL : String
  Path : String
  Host : String
  Headers : Header
  Body : List Byte := []
  Proto : String := ""
  BodyTruncated : Bool := false
deriving DecidableEq, Repr

/-- Embeds `CapturedResponse` from pkg/proxy. -/
structure CapturedResponse where
  StatusCode : Int
  Headers : Header
  Body : List Byte := []
  Proto : String := ""
  BodyTruncated : Bool := false
deriving DecidableEq, Repr

/-- Embeds the `Timestamps` field group of `Flow`; instants are opaque Nats,
with 0 the Go zero value. -/
structure Timestamps where
  Created : Nat := 0
  RequestDone : Nat := 0
  ResponseStart : Nat := 0
  ResponseDone : Nat := 0
deriving DecidableEq, Repr

/-- Embeds `Flow` from pkg/proxy.  The `resumeCh` gate channel is a
concurrency primitive: the blocking behaviour of `Intercept` is not part of
the state, but the `killed` marker and every field the methods write are. -/
structure Flow where
  ID : String
  Upstream : String
  Request : Option CapturedRequest := none
  Response : Option CapturedResponse := none
  Error : String := ""
  State : FlowState
  Tags : List String := []
  Timestamps : Timestamps := {}
  killed : Bool := false
deriving DecidableEq, Repr

/-- Embeds `Flow.Intercept` (state mutation part): sets State to
intercepted, installs a fresh gate, then blocks until Resume or Kill. -/
def Flow.Intercept (f : Flow) : Flow :=
  { f with State := FlowState.intercepted }

/-- Embeds `Flow.Resume`: closes the gate if open and not killed, and
unconditionally sets State back to active. -/
def Flow.Resume (f : Flow) : Flow :=
  { f with State := FlowState.active }

/-- Embeds `Flow.Kill`, modelled from the spec's words (the flow source is
not among the provided files): kill releases the gate with a killed marker,
and the serving thread reads the marker and replies 502.  Releasing the
gate returns a flow paused at it to active (the spec's lifecycle invariant:
intercept returns to active before terminating); a flow that was not paused
only acquires the marker. -/
def Flow.Kill (f : Flow) : Flow :=
  { f with killed := true,
           State := if f.State = FlowState.intercepted then FlowState.active
                    else f.State }

/-- Result of draining a Go `io.ReadCloser`: either the full byte stream, or
a read failure (Go `io.ReadAll` then reports a non-nil error and the engine
discards any partial data). -/
inductive ReadResult where
  | ok (data : List Byte)
  | fail
deriving DecidableEq, Repr

/-- Embeds `readLimited` (engine.go): reads at most maxBytes+1 bytes through
`io.LimitReader`, closes the source, and reports truncation when more than
maxBytes arrived.  Returns (bytes kept, truncated). -/
def readLimited (r : ReadResult) (maxBytes : Nat) : Except Unit (List Byte × Bool) :=
  match r with
  | ReadResult.fail => Except.error ()
  | ReadResult.ok source =>
    let data := source.take (maxBytes + 1)
    if data.length > maxBytes then
      Except.ok (data.take maxBytes, true)
    else
      Except.ok (data, false)

/-- Embeds `captureRequestBody` (engine.go).  `rBody` is `none` when
`r.Body == nil || r.Body == http.NoBody`.  On success the live request body
is replaced by a reader over the captured bytes; the replacement is returned
alongside the updated flow.  The engine only calls this with a flow whose
Request was just built by `newFlow`, hence non-nil; the `Option.map` mirrors
that the write goes through the `flow.Request` pointer. -/
def captureRequestBody (flow : Flow) (rBody : Option ReadResult) (maxBytes : Nat) :
    Except Unit (Flow × Option (List Byte)) :=
  match rBody with
  | none => Except.ok (flow, none)
  | some r =>
    match readLimited r maxBytes with
    | Except.error e => Except.error e
    | Except.ok (body, truncated) =>
      Except.ok
        ({ flow with Request := flow.Request.map fun cr =>
             { cr with Body := body, BodyTruncated := truncated } },
         some body)

/-- Live upstream response as `modifyResponse` receives it: status, headers,
protocol, and the body stream (`none` when `resp.Body == nil`). -/
structure RespIn where
  StatusCode : Int
  Headers : Header
  Proto : String := ""
  Body : Option ReadResult := none
deriving DecidableEq, Repr

/-- Embeds `captureResponseBody` (engine.go): installs the captured response
snapshot on the flow before reading the body, then reads the body bounded by
maxBytes, replacing the live body with the captured bytes on success.  On a
read failure the flow keeps the snapshot (status and headers set, body not
yet written) and the error is returned. -/
def captureResponseBody (flow : Flow) (resp : RespIn) (maxBytes : Nat) :
    Except Unit (Flow × Option (List Byte)) :=
  let captured : CapturedResponse :=
    { StatusCode := resp.StatusCode, Headers := resp.Headers, Proto := resp.Proto }
  let flow := { flow with Response := some captured }
  match resp.Body with
  | none => Except.ok (flow, none)
  | some r =>
    match readLimited r maxBytes with
    | Except.error e => Except.error e
    | Except.ok (body, truncated) =>
      let captured2 := { captured with Body := body, BodyTruncated := truncated }
      Except.ok ({ flow with Response := some captured2 }, some body)

/-- Embeds `Engine.modifyResponse` (engine.go) for a request that carries a
flow in its context.  Returns the mutated flow together with the error value
handed back to the reverse proxy (`none` on every path: a body-capture
failure clears the captured body, marks it truncated, and the response keeps
flowing to the client). -/
def modifyResponse (flow : Flow) (resp : RespIn) (maxBytes : Nat)
    (nowStart nowDone : Nat) : Flow × Option Unit :=
  let flow := { flow with Timestamps := { flow.Timestamps with ResponseStart := nowStart } }
  let flow :=
    match captureResponseBody flow resp maxBytes with
    | Except.error _ =>
      -- Mirrors the error branch: flow.Response.Body = nil; BodyTruncated = true.
      let failed : CapturedResponse :=
        { StatusCode := resp.StatusCode, Headers := resp.Headers, Proto := resp.Proto,
          Body := [], BodyTruncated := true }
      { flow with Response := some failed }
    | Except.ok (flow2, _) => flow2
  let flow := { flow with
    Timestamps := { flow.Timestamps with ResponseDone := nowDone },
    State := FlowState.complete }
  (flow, none)

/-- Embeds `Engine.errorHandler` (engine.go) for a request that carries a
flow in its context: marks the flow failed with the transport error text and
stamps response-done.  (The 502 written to the client is outside the flow.) -/
def errorHandler (flow : Flow) (errText : String) (nowDone : Nat) : Flow :=
  { flow with
    State := FlowState.error,
    Error := errText,
    Timestamps := { flow.Timestamps with ResponseDone := nowDone } }

/-! ## FlowStore (pkg/proxy/flow_store.go)

The ring slice is a total function from slot numbers, the id index a total
function from ids; both are `Option`-valued, matching nil-able slots and map
lookups.  Subscribers and broadcast are omitted (notification only). -/

/-- Embeds `FlowStore` (ring, id index, capacity, write head, live count). -/
structure FlowStore where
  flows : Nat → Option Flow
  index : String → Option Flow
  capacity : Nat
  head : Nat
  count : Nat

/-- Embeds `NewFlowStore`: a non-positive capacity argument falls back to
1000.  Go `int` is `Int` here so that the non-positive branch is faithful. -/
def NewFlowStore (capacity : Int) : FlowStore :=
  let cap : Nat := if capacity ≤ 0 then 1000 else capacity.toNat
  { flows := fun _ => none
    index := fun _ => none
    capacity := cap
    head := 0
    count := 0 }

/-- Embeds `FlowStore.Add`: when full, evicts the slot at head (removing it
from the index); otherwise grows the count.  Then writes the new flow at
head, indexes it, and advances head modulo capacity. -/
def FlowStore.Add (s : FlowStore) (f : Flow) : FlowStore :=
  let s1 :=
    if s.count = s.capacity then
      match s.flows s.head with
      | some old => { s with index := fun id => if id = old.ID then none else s.index id }
      | none => s
    else
      { s with count := s.count + 1 }
  { s1 with
    flows := fun i => if i = s.head then some f else s1.flows i
    index := fun id => if id = f.ID then some f else s1.index id
    head := (s.head + 1) % s.capacity }

/-- Embeds `FlowStore.Update`: publishes an event to subscribers and does
not touch ring, index, head or count. -/
def FlowStore.Update (s : FlowStore) (_f : Flow) : FlowStore := s

/-- Embeds `FlowStore.Get`: id-index lookup. -/
def FlowStore.Get (s : FlowStore) (id : String) : Option Flow :=
  s.index id

/-- Embeds `FlowStore.All`: snapshot in insertion order (oldest first).
Below capacity the ring is read from slot 0; at capacity it is read starting
at head.  Nil slots are skipped exactly as the source does. -/
def FlowStore.All (s : FlowStore) : List Flow :=
  if s.count = 0 then []
  else if s.count < s.capacity then
    (List.range s.count).filterMap fun i => s.flows i
  else
    (List.range s.capacity).filterMap fun i => s.flows ((s.head + i) % s.capacity)

/-- Embeds `FlowStore.Clear`: fresh ring and index, head and count reset. -/
def FlowStore.Clear (s : FlowStore) : FlowStore :=
  { s with
    flows := fun _ => none
    index := fun _ => none
    head := 0
    count := 0 }

/-- Embeds `FlowStore.Count`. -/
def FlowStore.Count (s : FlowStore) : Nat :=
  s.count

/-! ## Router

The router source is not among the provided files, so `NewRouter` is
modelled from the spec's words: on construction every upstream's prefix is
normalized (empty → "/"), and the upstreams are sorted by descending
prefix length with a stable sort, so ties in length keep insertion order.
The stable sort is embedded as insertion sort (`List.insertionSort`,
stable: an element is inserted before the first strictly shorter prefix
and after all equal-or-longer ones).  Match iterates in sorted order and
returns the first upstream whose prefix is "/" or a path-prefix of the
request path.  (The parsed target URL is never read by Match and omitted.)

The field `Prefix` is spelled `Pfx` here because `Prefix` is not usable
as a plain Lean field name in this development. -/

/-- Embeds `Upstream` (Name, Prefix, Target). -/
structure Upstream where
  Name : String
  Pfx : String
  Target : String
deriving DecidableEq, Repr

/-- Embeds `Router`: the slice of upstreams after NewRouter prepared it. -/
structure Router where
  upstreams : List Upstream
deriving DecidableEq, Repr

/-- Embeds the normalization loop of `NewRouter`: an empty prefix becomes
the catch-all "/". -/
def normalizeUpstreams (us : List Upstream) : List Upstream :=
  us.map fun u => if u.Pfx = "" then { u with Pfx := "/" } else u

/-- The sort order of NewRouter: descending prefix length. -/
def upGE (a b : Upstream) : Prop := b.Pfx.length ≤ a.Pfx.length

instance : DecidableRel upGE := fun _ _ => Nat.decLe _ _

instance : IsTotal Upstream upGE :=
  ⟨fun a b => (Nat.le_total b.Pfx.length a.Pfx.length).elim Or.inl Or.inr⟩

instance : IsTrans Upstream upGE :=
  ⟨fun _ _ _ h1 h2 => le_trans h2 h1⟩

/-- Sorted by descending prefix length: later elements never have a longer
prefix. -/
def PfxLenDescending (l : List Upstream) : Prop :=
  l.Pairwise upGE

instance : DecidablePred PfxLenDescending := fun l =>
  inferInstanceAs (Decidable (l.Pairwise _))

/-- Embeds `NewRouter` per the spec's words: normalize the prefixes, then
sort by descending prefix length with a stable sort (equal lengths keep
insertion order). -/
def NewRouter (input : List Upstream) : Router :=
  { upstreams := List.insertionSort upGE (normalizeUpstreams input) }

/-- Embeds Go `strings.HasPrefix(s, pre)`. -/
def strHasPre (s pre : String) : Bool :=
  pre.data.isPrefixOf s.data

/-- Embeds the match test of `Router.Match`:
u.Prefix == "/" || strings.HasPrefix(path, u.Prefix). -/
def upstreamMatches (path : String) (u : Upstream) : Bool :=
  u.Pfx = "/" || strHasPre path u.Pfx

/-- Embeds `Router.Match`: first upstream in stored order whose prefix is
"/" or a path-prefix of the request path; nil when none matches. -/
def Router.Match (r : Router) (path : String) : Option Upstream :=
  r.upstreams.find? (upstreamMatches path)

/-- Spec-side definition, written from the spec's words, for the
refinement statement of claim C1: the upstream with the longest prefix
that matches the path ("/" matches any path, otherwise the prefix must be
a path-prefix of the request path), ties in length resolved in favor of
the earlier-registered upstream; none when no upstream matches. -/
def specLongestEarliest (path : String) : List Upstream → Option Upstream
  | [] => none
  | u :: l =>
    match specLongestEarliest path l with
    | none => if upstreamMatches path u then some u else none
    | some v =>
      if upstreamMatches path u ∧ v.Pfx.length ≤ u.Pfx.length then some u
      else some v

/-! ## Replay (pkg/proxy/engine.go)

`Replay` rebuilds an outgoing request from a captured one via the standard
library `http.NewRequest` (whose URL parsing is abstracted as a `parseURL`
parameter), routes it, creates a freshly tagged flow whose captured request
is a clone of the original, stores it, and dispatches it through the
upstream reverse proxy into an in-memory recorder.  The reverse proxy round
trip ends in exactly one of the two engine callbacks; which one, and with
what upstream data, is the `UpstreamOutcome` parameter.  Go flow pointers
are aliased between the store and the handler, so the callback's mutation is
reflected in the store by `FlowStore.mutate`. -/

/-- Result of parsing an absolute URL string: the pieces of `url.URL` that
`Replay` and `newFlow` read. -/
structure URLInfo where
  Path : String
  Host : String
deriving DecidableEq, Repr

/-- The fields of `*http.Request` the engine reads. `URL` is the rendering
`r.URL.String()`, `Path` is `r.URL.Path`. -/
structure Request where
  Method : String
  URL : String
  Path : String
  Host : String
  Headers : Header
  Proto : String
  Body : Option ReadResult := none
deriving DecidableEq, Repr

/-- Embeds `rebuildRequest`: `http.NewRequest(cr.Method, cr.URL, body)` plus
re-adding every header pair.  URL parsing (inside http.NewRequest) is the
`parseURL` parameter; `none` is the error return. -/
def rebuildRequest (parseURL : String → Option URLInfo) (cr : CapturedRequest) :
    Option Request :=
  (parseURL cr.URL).map fun ui =>
    { Method := cr.Method, URL := cr.URL, Path := ui.Path, Host := ui.Host,
      Headers := cr.Headers, Proto := "HTTP/1.1",
      Body := some (ReadResult.ok cr.Body) }

/-- Embeds `cloneRequest`: a copy of a CapturedRequest with a copied body
slice and cloned headers — on values, a field-for-field copy. -/
def cloneRequest (cr : CapturedRequest) : CapturedRequest :=
  { Method := cr.Method
    URL := cr.URL
    Path := cr.Path
    Host := cr.Host
    Headers := cr.Headers
    Body := cr.Body
    Proto := cr.Proto
    BodyTruncated := cr.BodyTruncated }

/-- Embeds `Engine.newFlow`: flow skeleton with a fresh id (uuid.New — the
`id` parameter), the routing decision, state active, creation time, and a
snapshot of the request. -/
def newFlow (id : String) (now : Nat) (r : Request) (upstream : Upstream) : Flow :=
  { ID := id
    Upstream := upstream.Name
    State := FlowState.active
    Timestamps := { Created := now }
    Request := some
      { Method := r.Method, URL := r.URL, Path := r.Path, Host := r.Host,
        Headers := r.Headers, Proto := r.Proto } }

/-- How the reverse-proxy round trip of one dispatched request ends: with an
upstream response (driving `modifyResponse`) or a transport error (driving
`errorHandler`). -/
inductive UpstreamOutcome where
  | resp (r : RespIn) (nowStart nowDone : Nat)
  | err (msg : String) (nowDone : Nat)
deriving DecidableEq, Repr

/-- The flow mutation performed by the reverse proxy's callback for the
given outcome (engine.go modifyResponse / errorHandler). -/
def dispatchFlow (flow : Flow) (o : UpstreamOutcome) (maxBytes : Nat) : Flow :=
  match o with
  | UpstreamOutcome.resp r s d => (modifyResponse flow r maxBytes s d).1
  | UpstreamOutcome.err m d => errorHandler flow m d

/-- In-place mutation of the flow object with the given id, as seen through
both the ring and the index (Go aliases one `*Flow` from both). -/
def FlowStore.mutate (s : FlowStore) (id : String) (g : Flow → Flow) : FlowStore :=
  { s with
    flows := fun i => (s.flows i).map fun f => if f.ID = id then g f else f
    index := fun i => (s.index i).map fun f => if f.ID = id then g f else f }

/-- Go %q rendering of a string, up to escaping. -/
def goQuote (s : String) : String := "\"" ++ s ++ "\""

/-- The engine state `Replay` touches: store, router, the set of configured
per-upstream reverse proxies, and the body-capture bound. -/
structure Engine where
  store : FlowStore
  router : Router
  proxies : String → Bool
  maxBodySize : Nat

/-- Embeds `Engine.Replay`.  `newId` is the uuid minted inside `newFlow`,
`parseURL` the stdlib URL parser, `outcome` how the proxied round trip ends.
Returns the operator-visible result together with the resulting engine
state (in Go the early error returns also leave any already-added flow in
the store; only the ok path and the not-configured path have added one). -/
def Engine.Replay (e : Engine) (flowID : String) (newId : String) (now : Nat)
    (parseURL : String → Option URLInfo) (outcome : UpstreamOutcome) :
    Except String (Option Flow) × Engine :=
  match e.store.Get flowID with
  | none => (Except.error ("flow " ++ goQuote flowID ++ " not found"), e)
  | some original =>
    match original.Request with
    | none => (Except.error ("flow " ++ goQuote flowID ++ " has no captured request"), e)
    | some cr =>
      match rebuildRequest parseURL cr with
      | none => (Except.error "rebuild request: error", e)
      | some req =>
        match e.router.Match req.Path with
        | none => (Except.error ("no upstream for path " ++ goQuote req.Path), e)
        | some upstream =>
          let flow0 := newFlow newId now req upstream
          let flow1 := { flow0 with Tags := flow0.Tags ++ ["replay", "replay:" ++ flowID] }
          let flow2 := { flow1 with Request := some (cloneRequest cr) }
          let store1 := e.store.Add flow2
          if e.proxies upstream.Name then
            let flow3 := dispatchFlow flow2 outcome e.maxBodySize
            let store2 := store1.mutate flow2.ID fun _ => flow3
            (Except.ok (store2.Get flow2.ID), { e with store := store2 })
          else
            (Except.error ("upstream " ++ goQuote upstream.Name ++ " not configured"),
             { e with store := store1 })

/-! ## Flow lifecycle operations (claim C4)

The operations that write `Flow.State`: the flow methods Intercept, Resume,
Kill (modelled from the spec's intercept/kill section) and the two
reverse-proxy callbacks.  A trace applies them in sequence to one flow. -/

/-- One state-mutating operation on a flow. -/
inductive FlowOp where
  | intercept
  | resume
  | kill
  | respond (resp : RespIn) (maxBytes nowStart nowDone : Nat)
  | upstreamErr (msg : String) (nowDone : Nat)
deriving DecidableEq, Repr

/-- Applies one operation, as the source implements it. -/
def applyOp (f : Flow) : FlowOp → Flow
  | FlowOp.intercept => f.Intercept
  | FlowOp.resume => f.Resume
  | FlowOp.kill => f.Kill
  | FlowOp.respond r mb s d => (modifyResponse f r mb s d).1
  | FlowOp.upstreamErr m d => errorHandler f m d

/-- The sequence of states a flow passes through under a sequence of
operations, starting with its current state. -/
def stateTrace (f : Flow) : List FlowOp → List FlowState
  | [] => [f.State]
  | op :: ops => f.State :: stateTrace (applyOp f op) ops

/-- The steps the claim allows: the transitions of
active (→ intercepted → active)* → complete|error. -/
def claimStepOK : FlowState → FlowState → Bool
  | FlowState.active, FlowState.intercepted => true
  | FlowState.intercepted, FlowState.active => true
  | FlowState.active, FlowState.complete => true
  | FlowState.active, FlowState.error => true
  | _, _ => false

/-- Every adjacent pair of the trace satisfies the step predicate. -/
def stepsOK (step : FlowState → FlowState → Bool) : List FlowState → Bool
  | a :: b :: rest => step a b && stepsOK step (b :: rest)
  | _ => true

/-- A trace is a prefix of a word of active (→ intercepted → active)* →
complete|error exactly when it starts at active and each step is one of the
claimed transitions (terminal states admit no step, so a terminal occurs at
most once, and only at the end). -/
def ClaimTraceOK (t : List FlowState) : Bool :=
  (match t.head? with
   | some s => s = FlowState.active
   | none => true) && stepsOK claimStepOK t

/-- A raw step of one operation: either the state is unchanged (the
operation did not write it, such as kill on a flow that is not paused) or
it is one of the claimed transitions. -/
def stutterStepOK (a b : FlowState) : Bool :=
  a == b || claimStepOK a b

/-- Consecutive duplicates collapsed: the distinct states a flow passes
through.  An operation that leaves the state unchanged adds nothing to the
sequence of states passed through. -/
def passedStates : List FlowState → List FlowState
  | a :: b :: rest =>
    if a = b then passedStates (b :: rest) else a :: passedStates (b :: rest)
  | t => t

/-- Intended-use guard for each operation, from the engine's orchestration
and the method docs: intercept pauses an active flow; resume continues a
paused (intercepted) flow; kill terminates a live flow; the reverse-proxy
callbacks fire once on a flow still active. -/
def opGuard (f : Flow) : FlowOp → Prop
  | FlowOp.intercept => f.State = FlowState.active
  | FlowOp.resume => f.State = FlowState.intercepted
  | FlowOp.kill => f.State = FlowState.active ∨ f.State = FlowState.intercepted
  | FlowOp.respond _ _ _ _ => f.State = FlowState.active
  | FlowOp.upstreamErr _ _ => f.State = FlowState.active

/-- An operation sequence is guarded when every operation fires in its
intended state. -/
def Guarded (f : Flow) : List FlowOp → Prop
  | [] => True
  | op :: ops => opGuard f op ∧ Guarded (applyOp f op) ops

/-! ## Filter language

The filter source is not among the provided files; the compiler is
modelled from the spec's grammar, primitive semantics and error words
(each malformed class produces a descriptive error carrying a byte
offset).  The expression is a Go string indexed byte-by-byte; it is
embedded as a `List Char` with byte offsets as list indices (identical for
ASCII input, which the grammar's operators all are).  Out-of-range indexing — a Go
runtime panic — is a distinct error outcome `PErr.panicked`, so that
panic-freedom is a statement about the embedding rather than an artifact of
total functions.  The recursive-descent functions consume fuel on every
recursive call; `PErr.fuelOut` never occurs for the fuel `Parse` supplies
(enough for the deepest possible chain over the input length). -/

/-- A compiled predicate over a Flow (the `Filter` function type). -/
def Filter := Flow → Bool

/-- Embeds `MatchAll`. -/
def MatchAll : Filter := fun _ => true

/-- Failure outcomes of the embedded parser: an error value built with
fmt.Errorf, a Go runtime panic, or fuel exhaustion (unreachable from
`Parse`, kept explicit). -/
inductive PErr where
  | msg (s : String)
  | panicked
  | fuelOut
deriving DecidableEq, Repr

/-- Indexing `p.input[p.pos]`: out of range is a Go panic. -/
def readAt (input : List Char) (pos : Nat) : Except PErr Char :=
  match input.get? pos with
  | some c => Except.ok c
  | none => Except.error PErr.panicked

/-- Embeds Go `strings.Contains pat ⊆ hay` on char lists. -/
def listHasSub (hay pat : List Char) : Bool :=
  (List.range (hay.length + 1)).any fun i => pat.isPrefixOf (hay.drop i)

/-- Embeds `strings.Contains hay pat`. -/
def strContains (hay pat : String) : Bool :=
  listHasSub hay.data pat.data

/-- Embeds `string(bytes)`: bytes viewed as a string (identity on the
byte values; multi-byte decoding is irrelevant to substring search as the
filters use it). -/
def byteString (b : List Byte) : String :=
  String.mk (b.map fun n => Char.ofNat n)

/-- Embeds `strconv.Itoa` on the status code. -/
def itoa (n : Int) : String := toString n

/-- Embeds Go `strings.ToUpper` (character-wise). -/
def strUpper (s : String) : String := String.mk (s.data.map Char.toUpper)

/-- Embeds Go `strings.ToLower` (character-wise). -/
def strLower (s : String) : String := String.mk (s.data.map Char.toLower)

/-- Embeds `strings.SplitN(arg, ":", 2)`: text before the first colon, and
the remainder when a colon exists. -/
def splitN2 (s : String) : String × Option String :=
  let pre := s.data.takeWhile fun c => c ≠ ':'
  if pre.length = s.data.length then (s, none)
  else (String.mk pre, some (String.mk (s.data.drop (pre.length + 1))))

/-- Embeds `methodFilter`: method contains arg, case-insensitively. -/
def methodFilter (arg : String) : Filter :=
  let upper := strUpper arg
  fun f =>
    match f.Request with
    | none => false
    | some r => strContains (strUpper r.Method) upper

/-- Embeds `statusFilter`: decimal status code starts with arg; flows
without a response never match. -/
def statusFilter (arg : String) : Filter :=
  fun f =>
    match f.Response with
    | none => false
    | some r => strHasPre (itoa r.StatusCode) arg

/-- Embeds `pathFilter`: request path contains arg, case-insensitively. -/
def pathFilter (arg : String) : Filter :=
  let lower := strLower arg
  fun f =>
    match f.Request with
    | none => false
    | some r => strContains (strLower r.Path) lower

/-- One header multimap scan of `headerFilter`: some key contains the key
part and, when a value part is present, some value of that key contains
it. -/
def headerScan (key val : String) (hs : Header) : Bool :=
  hs.any fun kv =>
    strContains (strLower kv.1) key &&
      (val = "" || kv.2.any fun v => strContains (strLower v) val)

/-- Embeds `headerFilter`: arg is Key:Value or just Key; searches request
headers, then response headers. -/
def headerFilter (arg : String) : Filter :=
  let parts := splitN2 arg
  let key := strLower parts.1
  let val :=
    match parts.2 with
    | some v => strLower v
    | none => ""
  fun f =>
    (match f.Request with
     | some r => headerScan key val r.Headers
     | none => false) ||
    (match f.Response with
     | some r => headerScan key val r.Headers
     | none => false)

/-- Embeds `bodyFilter`: request or response body, as a raw string,
contains arg case-insensitively. -/
def bodyFilter (arg : String) : Filter :=
  let lower := strLower arg
  fun f =>
    (match f.Request with
     | some r => strContains (strLower (byteString r.Body)) lower
     | none => false) ||
    (match f.Response with
     | some r => strContains (strLower (byteString r.Body)) lower
     | none => false)

/-- Embeds `upstreamFilter`: upstream name contains arg,
case-insensitively. -/
def upstreamFilter (arg : String) : Filter :=
  let lower := strLower arg
  fun f => strContains (strLower f.Upstream) lower

/-- Embeds `parser.skipWS` on the suffix starting at pos: advances past
spaces and tabs.  Structural on the suffix so that the kernel evaluates
it. -/
def skipWSAux : List Char → Nat → Nat
  | c :: rest, pos =>
    if c = ' ' ∨ c = '\t' then skipWSAux rest (pos + 1) else pos
  | [], pos => pos

/-- Embeds `parser.skipWS`: advances past spaces and tabs. -/
def skipWS (input : List Char) (pos : Nat) : Nat :=
  skipWSAux (input.drop pos) pos

/-- Scan loop of `parser.parseArg` on the suffix starting at pos. -/
def argEndAux : List Char → Nat → Nat
  | c :: rest, pos =>
    if c = ' ' ∨ c = '\t' ∨ c = '&' ∨ c = '|' ∨ c = ')' then pos
    else argEndAux rest (pos + 1)
  | [], pos => pos

/-- Embeds the scan loop of `parser.parseArg`: first index at or after pos
holding a delimiter (space, tab, ampersand, pipe, close-paren), or the end
of input. -/
def argEnd (input : List Char) (pos : Nat) : Nat :=
  argEndAux (input.drop pos) pos

/-- Scan loop of `parser.parseQuoted` on the suffix starting at pos. -/
def quotedEndAux : List Char → Nat → Nat
  | c :: rest, pos =>
    if c = '\"' then pos else quotedEndAux rest (pos + 1)
  | [], pos => pos

/-- Embeds the scan loop of `parser.parseQuoted`: first index at or after
pos holding a double quote, or the end of input. -/
def quotedEnd (input : List Char) (pos : Nat) : Nat :=
  quotedEndAux (input.drop pos) pos

/-- Embeds `parser.parseQuoted`: called on an opening double quote;
consumes it, scans to the closing quote, and errors when the input ends
first. -/
def parseQuoted (input : List Char) (pos : Nat) : Except PErr (String × Nat) :=
  let start := pos + 1
  let stop := quotedEnd input start
  if stop ≥ input.length then
    Except.error (PErr.msg ("unterminated quoted string at position " ++ toString pos))
  else
    Except.ok (String.mk ((input.take stop).drop start), stop + 1)

/-- Embeds `parser.parseArg`: next whitespace-delimited token or quoted
string; an immediately following delimiter is the empty-argument error. -/
def parseArg (input : List Char) (pos : Nat) : Except PErr (String × Nat) := do
  let pos := skipWS input pos
  if pos ≥ input.length then
    Except.error (PErr.msg ("expected argument at position " ++ toString pos))
  else do
    let c ← readAt input pos
    if c = '\"' then parseQuoted input pos
    else
      let stop := argEnd input pos
      if stop = pos then
        Except.error (PErr.msg ("empty argument at position " ++ toString stop))
      else
        Except.ok (String.mk ((input.take stop).drop pos), stop)

/-- Embeds `parser.parsePrimitive`: a tilde, a kind byte, then an argument;
unknown kinds are rejected after the argument is read. -/
def parsePrimitive (input : List Char) (pos : Nat) : Except PErr (Filter × Nat) := do
  let pos := skipWS input pos
  if pos + 1 ≥ input.length then
    Except.error (PErr.msg
      ("expected filter expression starting with \x27~\x27 at position " ++ toString pos))
  else do
    let c ← readAt input pos
    if c ≠ '~' then
      Except.error (PErr.msg
        ("expected filter expression starting with \x27~\x27 at position " ++ toString pos))
    else
      let pos := pos + 1
      if pos ≥ input.length then
        Except.error (PErr.msg
          ("expected filter type after \x27~\x27 at position " ++ toString pos))
      else do
        let kpos := pos
        let kind ← readAt input pos
        let pos := pos + 1
        let pos := skipWS input pos
        let (arg, pos) ← parseArg input pos
        if kind = 'm' then pure (methodFilter arg, pos)
        else if kind = 's' then pure (statusFilter arg, pos)
        else if kind = 'p' then pure (pathFilter arg, pos)
        else if kind = 'h' then pure (headerFilter arg, pos)
        else if kind = 'b' then pure (bodyFilter arg, pos)
        else if kind = 'u' then pure (upstreamFilter arg, pos)
        else Except.error (PErr.msg ("unknown filter type " ++ goQuote (String.mk [kind]) ++
          " at position " ++ toString kpos))

/-- Which nonterminal of the recursive descent is running; the loop levels
carry the accumulated left operand exactly as the Go for-loops do. -/
inductive PLevel where
  | or
  | orLoop (left : Filter)
  | and
  | andLoop (left : Filter)
  | not
  | atom

/-- The mutually recursive part of the parser (parseOr / parseAnd /
parseNot / parseAtom and the two operator loops), as one function
structurally recursive on fuel; fuel is spent on every recursive call and
`Parse` supplies more than any descent can use.

Per level this mirrors the source bodies:
- or: left from parseAnd, then the pipe loop;
- orLoop: stops unless pos + 1 < len and the byte is a pipe (a trailing
  lone pipe is left as trailing input), else parses the right operand and
  continues with the disjunction;
- and: left from parseNot, then the ampersand loop (guard pos < len);
- not: an optional bang before an atom;
- atom: a parenthesised group (requiring the closing paren) or a
  primitive. -/
def parseRun (input : List Char) : Nat → PLevel → Nat → Except PErr (Filter × Nat)
  | 0, _, _ => Except.error PErr.fuelOut
  | fuel + 1, PLevel.or, pos => do
    let r ← parseRun input fuel PLevel.and pos
    parseRun input fuel (PLevel.orLoop r.1) r.2
  | fuel + 1, PLevel.orLoop left, pos =>
    let pos := skipWS input pos
    if pos + 1 < input.length then do
      let c ← readAt input pos
      if c = '|' then do
        let r ← parseRun input fuel PLevel.and (pos + 1)
        parseRun input fuel (PLevel.orLoop fun f => left f || r.1 f) r.2
      else pure (left, pos)
    else pure (left, pos)
  | fuel + 1, PLevel.and, pos => do
    let r ← parseRun input fuel PLevel.not pos
    parseRun input fuel (PLevel.andLoop r.1) r.2
  | fuel + 1, PLevel.andLoop left, pos =>
    let pos := skipWS input pos
    if pos < input.length then do
      let c ← readAt input pos
      if c = '&' then do
        let r ← parseRun input fuel PLevel.not (pos + 1)
        parseRun input fuel (PLevel.andLoop fun f => left f && r.1 f) r.2
      else pure (left, pos)
    else pure (left, pos)
  | fuel + 1, PLevel.not, pos =>
    let pos := skipWS input pos
    if pos < input.length then do
      let c ← readAt input pos
      if c = '!' then do
        let r ← parseRun input fuel PLevel.atom (pos + 1)
        pure ((fun f => ! r.1 f), r.2)
      else parseRun input fuel PLevel.atom pos
    else parseRun input fuel PLevel.atom pos
  | fuel + 1, PLevel.atom, pos =>
    let pos := skipWS input pos
    if pos ≥ input.length then
      Except.error (PErr.msg
        ("unexpected end of expression at position " ++ toString pos))
    else do
      let c ← readAt input pos
      if c = '(' then do
        let r ← parseRun input fuel PLevel.or (pos + 1)
        let pos2 := skipWS input r.2
        if pos2 ≥ input.length then
          Except.error (PErr.msg
            ("expected closing \x27)\x27 at position " ++ toString pos2))
        else do
          let c2 ← readAt input pos2
          if c2 = ')' then pure (r.1, pos2 + 1)
          else Except.error (PErr.msg
            ("expected closing \x27)\x27 at position " ++ toString pos2))
      else parsePrimitive input pos

/-- Embeds `parser.parseOr`. -/
def parseOr (input : List Char) (fuel : Nat) (pos : Nat) : Except PErr (Filter × Nat) :=
  parseRun input fuel PLevel.or pos

/-- Embeds `parser.parseAnd`. -/
def parseAnd (input : List Char) (fuel : Nat) (pos : Nat) : Except PErr (Filter × Nat) :=
  parseRun input fuel PLevel.and pos

/-- Embeds `parser.parseNot`. -/
def parseNot (input : List Char) (fuel : Nat) (pos : Nat) : Except PErr (Filter × Nat) :=
  parseRun input fuel PLevel.not pos

/-- Embeds `parser.parseAtom`. -/
def parseAtom (input : List Char) (fuel : Nat) (pos : Nat) : Except PErr (Filter × Nat) :=
  parseRun input fuel PLevel.atom pos

/-- Embeds `unicode.IsSpace` on the code points Go's TrimSpace meets in
ASCII expressions. -/
def isGoSpace (c : Char) : Bool :=
  c = ' ' || c = '\t' || c = '\n' || c = '\r' || c = '\x0b' || c = '\x0c'

/-- Embeds `strings.TrimSpace`. -/
def goTrimSpace (s : String) : String :=
  String.mk (((s.data.dropWhile isGoSpace).reverse.dropWhile isGoSpace).reverse)

/-- Fuel that the deepest possible descent over the input cannot exhaust. -/
def parseFuel (input : List Char) : Nat :=
  8 * (input.length + 2)

/-- Embeds `Parse`: trims the expression, compiles the empty string to
MatchAll, and rejects trailing input after a complete parse. -/
def Parse (expr : String) : Except PErr Filter :=
  let expr := goTrimSpace expr
  if expr = "" then Except.ok MatchAll
  else
    let input := expr.data
    match parseOr input (parseFuel input) 0 with
    | Except.error e => Except.error e
    | Except.ok (f, pos) =>
      if pos < input.length then
        Except.error (PErr.msg
          ("unexpected token at position " ++ toString pos ++ ": " ++
            goQuote (String.mk (input.drop pos))))
      else Except.ok f

/-- Whether an error message carries a byte offset, rendered as the
compiler renders every offset it reports: the literal text "at position "
followed by the decimal offset. -/
def hasPosition (s : String) : Bool :=
  listHasSub s.data "at position ".data

/-! ## FlowStore refinement (claims C3 and C9)

`StoreInv s ms` says the ring, head, count and index of `s` represent the
abstract flow sequence `ms` (oldest first).  The store operations refine
the obvious model operations on `ms`, provided the ids of stored flows are
pairwise distinct (they are uuids in the source). -/

/-- Ring slot holding the i-th oldest stored flow. -/
def slotOf (s : FlowStore) (i : Nat) : Nat :=
  (s.head + (s.capacity - s.count) + i) % s.capacity

/-- The abstraction relation between a store and the list of stored flows
in insertion order (oldest first). -/
def StoreInv (s : FlowStore) (ms : List Flow) : Prop :=
  0 < s.capacity ∧
  s.head < s.capacity ∧
  s.count = ms.length ∧
  s.count ≤ s.capacity ∧
  (s.count < s.capacity → s.head = s.count) ∧
  (∀ i, i < s.count → s.flows (slotOf s i) = ms.get? i) ∧
  (∀ id, s.index id = ms.find? fun g => g.ID == id) ∧
  (ms.map Flow.ID).Nodup

/-- Model of `Add` on the abstract list: append, evicting the oldest when
at capacity. -/
def modelAdd (cap : Nat) (ms : List Flow) (f : Flow) : List Flow :=
  if ms.length = cap then ms.tail ++ [f] else ms ++ [f]

/-- One mutating store call of a test sequence. -/
inductive StoreOp where
  | add (f : Flow)
  | update (f : Flow)
  | clear
deriving DecidableEq, Repr

/-- Runs one store call. -/
def applyStoreOp (s : FlowStore) : StoreOp → FlowStore
  | StoreOp.add f => s.Add f
  | StoreOp.update f => s.Update f
  | StoreOp.clear => s.Clear

/-- Runs a sequence of store calls. -/
def runStore (s : FlowStore) (ops : List StoreOp) : FlowStore :=
  ops.foldl applyStoreOp s

/-- Model of one store call on the abstract list. -/
def modelOp (cap : Nat) (ms : List Flow) : StoreOp → List Flow
  | StoreOp.add f => modelAdd cap ms f
  | StoreOp.update _ => ms
  | StoreOp.clear => []

/-- Model of a call sequence. -/
def runModel (cap : Nat) (ms : List Flow) (ops : List StoreOp) : List Flow :=
  ops.foldl (modelOp cap) ms

/-- Ids of the flows an op sequence adds. -/
def addIDs : List StoreOp → List String
  | [] => []
  | StoreOp.add f :: ops => f.ID :: addIDs ops
  | StoreOp.update _ :: ops => addIDs ops
  | StoreOp.clear :: ops => addIDs ops

instance instOpGuardDec (f : Flow) (op : FlowOp) : Decidable (opGuard f op) :=
  match op with
  | FlowOp.intercept => inferInstanceAs (Decidable (_ = _))
  | FlowOp.resume => inferInstanceAs (Decidable (_ = _))
  | FlowOp.kill => inferInstanceAs (Decidable (_ ∨ _))
  | FlowOp.respond _ _ _ _ => inferInstanceAs (Decidable (_ = _))
  | FlowOp.upstreamErr _ _ => inferInstanceAs (Decidable (_ = _))

instance instGuardedDec : (f : Flow) → (ops : List FlowOp) → Decidable (Guarded f ops)
  | _, [] => Decidable.isTrue trivial
  | f, op :: ops =>
    have : Decidable (Guarded (applyOp f op) ops) := instGuardedDec _ _
    inferInstanceAs (Decidable (_ ∧ _))

/-- Concrete flow for the C2 witness. -/
def w2cr : CapturedRequest :=
  { Method := "POST", URL := "http://h/p", Path := "/p", Host := "h", Headers := [] }

/-- Concrete flow holding `w2cr`. -/
def w2flow : Flow :=
  { ID := "w2", Upstream := "u", State := FlowState.active, Request := some w2cr }

/-- Concrete flow for the C4 theorems. -/
def c4flow : Flow := { ID := "c4", Upstream := "u", State := FlowState.active }

/-- Concrete guarded operation sequence for the C4 witness: pause, resume,
pause again, kill at the gate, then the upstream-error callback on the
killed flow. -/
def c4ops : List FlowOp :=
  [FlowOp.intercept, FlowOp.resume, FlowOp.intercept, FlowOp.kill,
   FlowOp.upstreamErr "killed" 3]

/-- Concrete upstreams for the C1 witness: the spec's longest-prefix
example. -/
def w1api : Upstream := { Name := "a", Pfx := "/api", Target := "http://a" }

/-- Catch-all upstream of the C1 witness. -/
def w1root : Upstream := { Name := "root", Pfx := "/", Target := "http://r" }

/-- Captured request of the C5 witness. -/
def w5cr : CapturedRequest :=
  { Method := "GET", URL := "http://h/x", Path := "/x", Host := "h",
    Headers := [("A", ["b"])], Body := [104, 105] }

/-- Original stored flow of the C5 witness. -/
def w5orig : Flow :=
  { ID := "orig", Upstream := "default", State := FlowState.complete,
    Request := some w5cr }

/-- Catch-all upstream of the C5 witness. -/
def w5up : Upstream := { Name := "default", Pfx := "/", Target := "http://t" }

/-- Engine state of the C5 witness: one stored flow, one routed upstream. -/
def w5eng : Engine :=
  { store := (NewFlowStore 10).Add w5orig
    router := { upstreams := [w5up] }
    proxies := fun n => n = "default"
    maxBodySize := 1024 }

/-- URL parse outcome of the C5 witness. -/
def w5parse : String → Option URLInfo := fun _ => some { Path := "/x", Host := "h" }

/-- Round-trip outcome of the C5 witness: a 200 with no body. -/
def w5out : UpstreamOutcome :=
  UpstreamOutcome.resp { StatusCode := 200, Headers := [] } 6 7

/-- Concrete call sequence for the C9 witness: two adds, an update, a third
add overflowing capacity 2, a clear, then another add. -/
def w9ops : List StoreOp :=
  [StoreOp.add { ID := "a", Upstream := "u", State := FlowState.active },
   StoreOp.add { ID := "b", Upstream := "u", State := FlowState.active },
   StoreOp.update { ID := "a", Upstream := "u", State := FlowState.complete },
   StoreOp.add { ID := "c", Upstream := "u", State := FlowState.active },
   StoreOp.clear,
   StoreOp.add { ID := "d", Upstream := "u", State := FlowState.active }]

/-- Three flows with distinct ids for the C3 witness. -/
def w3fs : List Flow :=
  [{ ID := "f1", Upstream := "u", State := FlowState.active },
   { ID := "f2", Upstream := "u", State := FlowState.active },
   { ID := "f3", Upstream := "u", State := FlowState.active }]

/-- Fuel needed on top of five per unconsumed byte, per nonterminal. -/
def levelFuel : PLevel → Nat
  | PLevel.or => 5
  | PLevel.orLoop _ => 4
  | PLevel.and => 3
  | PLevel.andLoop _ => 2
  | PLevel.not => 2
  | PLevel.atom => 1

/-! ## Theorems -/

/-- C10: for every capacity argument c ≤ 0, NewFlowStore(c) does not fail
and creates a store whose effective capacity is 1000, equal as a state to
NewFlowStore(1000) and hence behaving identically to it. -/
theorem newFlowStore_nonpositive_capacity (c : Int) (h : c ≤ 0) :
    NewFlowStore c = NewFlowStore 1000 ∧ (NewFlowStore c).capacity = 1000 := by
  constructor
  · simp [NewFlowStore, if_pos h]
  · simp [NewFlowStore, if_pos h]

/-- Witness for C10 at the concrete capacity argument -3. -/
theorem newFlowStore_nonpositive_capacity_witness :
    NewFlowStore (-3) = NewFlowStore 1000 ∧ (NewFlowStore (-3)).capacity = 1000 :=
  newFlowStore_nonpositive_capacity (-3) (by decide)

/-- C2: for a request body of n bytes and limit maxBytes, the captured body
is the first min(n, maxBytes) bytes, and the truncated flag is set exactly
when n > maxBytes; the live body is replaced by the captured bytes. -/
theorem readLimited_ok (data : List Byte) (maxBytes : Nat) :
    readLimited (ReadResult.ok data) maxBytes =
      Except.ok (data.take maxBytes, decide (data.length > maxBytes)) := by
  simp only [readLimited]
  by_cases hlen : data.length > maxBytes
  · have h1 : (data.take (maxBytes + 1)).length > maxBytes := by
      simp only [List.length_take]
      omega
    simp only [h1, if_true, List.take_take, if_pos h1]
    have h2 : min maxBytes (maxBytes + 1) = maxBytes := by omega
    simp [h2, hlen]
  · have h1 : ¬ (data.take (maxBytes + 1)).length > maxBytes := by
      simp only [List.length_take]
      omega
    rw [if_neg h1]
    have h2 : data.take (maxBytes + 1) = data := List.take_of_length_le (by omega)
    have h3 : data.take maxBytes = data := List.take_of_length_le (by omega)
    simp [h2, h3, hlen]

theorem captureRequestBody_bounds (flow : Flow) (cr : CapturedRequest)
    (data : List Byte) (maxBytes : Nat) (h : flow.Request = some cr) :
    captureRequestBody flow (some (ReadResult.ok data)) maxBytes =
      Except.ok
        ({ flow with Request := some ({ cr with
            Body := data.take maxBytes,
            BodyTruncated := decide (data.length > maxBytes) }) },
         some (data.take maxBytes)) ∧
    (data.take maxBytes).length = min data.length maxBytes := by
  refine ⟨?_, by simp [Nat.min_comm]⟩
  simp only [captureRequestBody]
  rw [readLimited_ok]
  rw [h]
  rfl

/-- Witness for C2: a three-byte body against limit 2 keeps the first two
bytes, reports size min(3, 2) = 2, and sets the truncated flag. -/
theorem captureRequestBody_bounds_witness :
    w2flow.Request = some w2cr ∧
    (captureRequestBody w2flow (some (ReadResult.ok [10, 11, 12])) 2 =
      Except.ok
        ({ w2flow with Request := some ({ w2cr with
            Body := [10, 11, 12].take 2,
            BodyTruncated := decide (([10, 11, 12] : List Byte).length > 2) }) },
         some (([10, 11, 12] : List Byte).take 2)) ∧
      (([10, 11, 12] : List Byte).take 2).length = min ([10, 11, 12] : List Byte).length 2) :=
  ⟨rfl, captureRequestBody_bounds w2flow w2cr [10, 11, 12] 2 rfl⟩

/-- C6: when the response-body read fails, the proxy is not failed (nil
error returned to the reverse proxy, so the body keeps streaming to the
client) and the flow finishes complete with an empty captured body marked
truncated, status and headers still captured. -/
theorem modifyResponse_capture_failure (flow : Flow) (resp : RespIn)
    (maxBytes nowStart nowDone : Nat) (h : resp.Body = some ReadResult.fail) :
    (modifyResponse flow resp maxBytes nowStart nowDone).2 = none ∧
    (modifyResponse flow resp maxBytes nowStart nowDone).1.State = FlowState.complete ∧
    (modifyResponse flow resp maxBytes nowStart nowDone).1.Response =
      some { StatusCode := resp.StatusCode, Headers := resp.Headers,
             Proto := resp.Proto, Body := [], BodyTruncated := true } := by
  unfold modifyResponse captureResponseBody
  rw [h]
  simp [readLimited]

/-- Witness for C6 at a concrete flow and failing response stream. -/
theorem modifyResponse_capture_failure_witness :
    (({ StatusCode := 200, Headers := [("H", ["v"])],
        Body := some ReadResult.fail } : RespIn)).Body = some ReadResult.fail ∧
    ((modifyResponse { ID := "w6", Upstream := "u", State := FlowState.active }
        { StatusCode := 200, Headers := [("H", ["v"])], Body := some ReadResult.fail }
        64 1 2).2 = none ∧
     (modifyResponse { ID := "w6", Upstream := "u", State := FlowState.active }
        { StatusCode := 200, Headers := [("H", ["v"])], Body := some ReadResult.fail }
        64 1 2).1.State = FlowState.complete ∧
     (modifyResponse { ID := "w6", Upstream := "u", State := FlowState.active }
        { StatusCode := 200, Headers := [("H", ["v"])], Body := some ReadResult.fail }
        64 1 2).1.Response =
       some { StatusCode := 200, Headers := [("H", ["v"])], Proto := "",
              Body := [], BodyTruncated := true }) :=
  ⟨rfl, modifyResponse_capture_failure
    { ID := "w6", Upstream := "u", State := FlowState.active }
    { StatusCode := 200, Headers := [("H", ["v"])], Body := some ReadResult.fail }
    64 1 2 rfl⟩

/-- C8: the compiled predicate is deterministic and Parse is pure: two
parses of the same expression yield predicates that agree on every flow,
and one predicate applied twice to the same flow gives the same boolean. -/
theorem parse_deterministic (e : String) (p q : Filter)
    (h1 : Parse e = Except.ok p) (h2 : Parse e = Except.ok q) :
    ∀ f : Flow, p f = q f ∧ p f = p f := by
  have : (Except.ok p : Except PErr Filter) = Except.ok q := h1.symm.trans h2
  have hpq : p = q := by injection this
  subst hpq
  exact fun f => ⟨rfl, rfl⟩

/-- Witness for C8: the expression "~u api" parses and the theorem applies
to its two (identical) parses on a concrete flow. -/
theorem parse_deterministic_witness :
    Parse "~u api" = Except.ok (upstreamFilter "api") ∧
    ((upstreamFilter "api") { ID := "w8", Upstream := "api", State := FlowState.active } =
       (upstreamFilter "api") { ID := "w8", Upstream := "api", State := FlowState.active } ∧
     (upstreamFilter "api") { ID := "w8", Upstream := "api", State := FlowState.active } =
       (upstreamFilter "api") { ID := "w8", Upstream := "api", State := FlowState.active }) :=
  ⟨rfl, parse_deterministic "~u api" (upstreamFilter "api") (upstreamFilter "api") rfl rfl
    { ID := "w8", Upstream := "api", State := FlowState.active }⟩

/-- Every trace starts with the current state. -/
theorem stateTrace_shape (f : Flow) (ops : List FlowOp) :
    ∃ t, stateTrace f ops = f.State :: t := by
  cases ops <;> exact ⟨_, rfl⟩

/-- Under guarded use, every adjacent pair of raw states either stutters
(the operation did not write the state) or is a claimed transition. -/
theorem guarded_steps (ops : List FlowOp) : ∀ f : Flow, Guarded f ops →
    stepsOK stutterStepOK (stateTrace f ops) = true := by
  induction ops with
  | nil => intro f _; rfl
  | cons op rest ih =>
    intro f hg
    obtain ⟨hguard, hrest⟩ := hg
    obtain ⟨t, ht⟩ := stateTrace_shape (applyOp f op) rest
    have h2 := ih (applyOp f op) hrest
    rw [ht] at h2
    rw [stateTrace, ht]
    show (stutterStepOK f.State (applyOp f op).State &&
      stepsOK stutterStepOK ((applyOp f op).State :: t)) = true
    rw [Bool.and_eq_true]
    refine ⟨?_, h2⟩
    cases op with
    | intercept =>
      have hs : f.State = FlowState.active := hguard
      simp [applyOp, Flow.Intercept, hs, stutterStepOK, claimStepOK]
    | resume =>
      have hs : f.State = FlowState.intercepted := hguard
      simp [applyOp, Flow.Resume, hs, stutterStepOK, claimStepOK]
    | kill =>
      rcases hguard with hs | hs <;>
        simp [applyOp, Flow.Kill, hs, stutterStepOK, claimStepOK]
    | respond r mb s d =>
      have hs : f.State = FlowState.active := hguard
      simp [applyOp, modifyResponse, hs, stutterStepOK, claimStepOK]
    | upstreamErr m d =>
      have hs : f.State = FlowState.active := hguard
      simp [applyOp, errorHandler, hs, stutterStepOK, claimStepOK]

/-- Collapsing consecutive duplicates keeps the first state. -/
theorem passedStates_head : ∀ t : List FlowState,
    (passedStates t).head? = t.head? := by
  intro t
  induction t with
  | nil => rfl
  | cons a rest ih =>
    cases rest with
    | nil => rfl
    | cons b rest2 =>
      simp only [passedStates]
      by_cases hab : a = b
      · rw [if_pos hab, ih]
        subst hab
        rfl
      · rw [if_neg hab]
        rfl

/-- If every raw step stutters or follows a claimed transition, the
collapsed sequence of states passed through follows the claimed
transitions. -/
theorem stepsOK_passedStates : ∀ t : List FlowState,
    stepsOK stutterStepOK t = true → stepsOK claimStepOK (passedStates t) = true := by
  intro t
  induction t with
  | nil => intro _; rfl
  | cons a rest ih =>
    cases rest with
    | nil => intro _; rfl
    | cons b rest2 =>
      intro h
      rw [show stepsOK stutterStepOK (a :: b :: rest2) =
        (stutterStepOK a b && stepsOK stutterStepOK (b :: rest2)) from rfl,
        Bool.and_eq_true] at h
      obtain ⟨hab, hrest⟩ := h
      have h2 := ih hrest
      simp only [passedStates]
      by_cases heq : a = b
      · rw [if_pos heq]
        exact h2
      · rw [if_neg heq]
        have hh := passedStates_head (b :: rest2)
        cases hps : passedStates (b :: rest2) with
        | nil => rw [hps] at hh; exact absurd hh (by simp)
        | cons c l2 =>
          rw [hps] at hh
          have hcb : c = b := by
            have := hh.symm
            simp only [List.head?] at this
            exact (Option.some.inj this).symm
          rw [hps] at h2
          show (claimStepOK a c && stepsOK claimStepOK (c :: l2)) = true
          rw [Bool.and_eq_true]
          refine ⟨?_, h2⟩
          subst hcb
          simp only [stutterStepOK, Bool.or_eq_true, beq_iff_eq] at hab
          rcases hab with hab | hab
          · exact absurd hab heq
          · exact hab

/-- In a list sorted by descending prefix length, the first match has
maximal prefix length among all matches. -/
theorem find_matching_longest (path : String) :
    ∀ l : List Upstream, l.Pairwise (fun a b => b.Pfx.length ≤ a.Pfx.length) →
      ∀ u, l.find? (upstreamMatches path) = some u →
        ∀ v ∈ l, upstreamMatches path v = true → v.Pfx.length ≤ u.Pfx.length := by
  intro l
  induction l with
  | nil => intro _ u hu; simp [List.find?] at hu
  | cons a l ih =>
    intro hp u hu v hv hvm
    obtain ⟨hhead, htail⟩ := List.pairwise_cons.mp hp
    by_cases hm : upstreamMatches path a = true
    · rw [List.find?_cons_of_pos _ hm] at hu
      injection hu with hu
      subst hu
      rcases List.mem_cons.mp hv with hva | hvl
      · subst hva; exact le_refl _
      · exact hhead v hvl
    · rw [List.find?_cons_of_neg _ (by simpa using hm)] at hu
      rcases List.mem_cons.mp hv with hva | hvl
      · subst hva; exact absurd hvm hm
      · exact ih htail u hu v hvl hvm

/-- Inserting x into a descending-sorted list with `orderedInsert` and
taking the first match computes the longest-then-earliest choice over x
and the first match of the rest. -/
theorem find?_orderedInsert (path : String) (x : Upstream) :
    ∀ s : List Upstream, PfxLenDescending s →
      (List.orderedInsert upGE x s).find? (upstreamMatches path) =
        (match s.find? (upstreamMatches path) with
         | none => if upstreamMatches path x then some x else none
         | some v =>
           if upstreamMatches path x ∧ v.Pfx.length ≤ x.Pfx.length then some x
           else some v) := by
  intro s
  induction s with
  | nil =>
    intro _
    simp only [List.orderedInsert, List.find?]
    cases hpx : upstreamMatches path x <;> simp [hpx]
  | cons y t ih =>
    intro hs
    obtain ⟨hhead, htail⟩ := List.pairwise_cons.mp hs
    simp only [List.orderedInsert]
    by_cases h1 : upGE x y
    · rw [if_pos h1]
      cases hpx : upstreamMatches path x with
      | true =>
        rw [List.find?_cons_of_pos _ hpx]
        cases hf : (y :: t).find? (upstreamMatches path) with
        | none => simp [hpx]
        | some v =>
          have hvmem : v ∈ y :: t := List.mem_of_find?_eq_some hf
          have hvy : v.Pfx.length ≤ y.Pfx.length := by
            rcases List.mem_cons.mp hvmem with hvx | hvl
            · subst hvx; exact le_refl _
            · exact hhead v hvl
          simp [hpx, le_trans hvy h1]
      | false =>
        rw [List.find?_cons_of_neg _ (by simp [hpx])]
        cases hf : (y :: t).find? (upstreamMatches path) with
        | none => simp [hpx]
        | some v => simp [hpx]
    · rw [if_neg h1]
      cases hpy : upstreamMatches path y with
      | true =>
        have hny : ¬(upstreamMatches path x = true ∧
            y.Pfx.length ≤ x.Pfx.length) := fun hc => h1 hc.2
        rw [List.find?_cons_of_pos _ hpy, List.find?_cons_of_pos _ hpy]
        dsimp only
        rw [if_neg hny]
      | false =>
        rw [List.find?_cons_of_neg _ (by simp [hpy]),
          List.find?_cons_of_neg _ (by simp [hpy]), ih htail]

/-- The stable insertion sort turns first-match into the spec's
longest-then-earliest rule. -/
theorem find?_insertionSort (path : String) :
    ∀ l : List Upstream,
      (List.insertionSort upGE l).find? (upstreamMatches path) =
        specLongestEarliest path l := by
  intro l
  induction l with
  | nil => rfl
  | cons x l ih =>
    have hs : PfxLenDescending (List.insertionSort upGE l) :=
      List.sorted_insertionSort upGE l
    simp only [List.insertionSort]
    rw [find?_orderedInsert path x (List.insertionSort upGE l) hs, ih]
    rfl

/-- Capturing a response body touches only the Response field. -/
theorem captureResponseBody_preserves (f : Flow) (resp : RespIn) (mb : Nat) :
    ∀ res, captureResponseBody f resp mb = Except.ok res →
      res.1.ID = f.ID ∧ res.1.Request = f.Request ∧ res.1.Tags = f.Tags := by
  intro res h
  cases hb : resp.Body with
  | none =>
    simp only [captureResponseBody, hb] at h
    injection h with h
    subst h
    exact ⟨rfl, rfl, rfl⟩
  | some r =>
    cases hr : readLimited r mb with
    | error e =>
      simp only [captureResponseBody, hb, hr] at h
      exact Except.noConfusion h
    | ok br =>
      obtain ⟨body, trunc⟩ := br
      simp only [captureResponseBody, hb, hr] at h
      injection h with h
      subst h
      exact ⟨rfl, rfl, rfl⟩

/-- The response callback touches only Response, State and Timestamps. -/
theorem modifyResponse_preserves (f : Flow) (resp : RespIn) (mb s d : Nat) :
    (modifyResponse f resp mb s d).1.ID = f.ID ∧
    (modifyResponse f resp mb s d).1.Request = f.Request ∧
    (modifyResponse f resp mb s d).1.Tags = f.Tags := by
  cases hres : captureResponseBody
      { f with Timestamps := { f.Timestamps with ResponseStart := s } } resp mb with
  | error e => simp [modifyResponse, hres]
  | ok res =>
    have hp := captureResponseBody_preserves
      { f with Timestamps := { f.Timestamps with ResponseStart := s } } resp mb res hres
    simp only [modifyResponse, hres]
    exact ⟨hp.1, hp.2.1, hp.2.2⟩

/-- The upstream round-trip callbacks keep the flow's id, captured request
and tags. -/
theorem dispatchFlow_preserves (f : Flow) (o : UpstreamOutcome) (mb : Nat) :
    (dispatchFlow f o mb).ID = f.ID ∧
    (dispatchFlow f o mb).Request = f.Request ∧
    (dispatchFlow f o mb).Tags = f.Tags := by
  cases o with
  | resp r s d => exact modifyResponse_preserves f r mb s d
  | err m d => exact ⟨rfl, rfl, rfl⟩

/-- Cloning a captured request is the identity on values. -/
theorem cloneRequest_eq (cr : CapturedRequest) : cloneRequest cr = cr := rfl

/-- C5: replaying a stored flow the router can still route yields a new
flow under the fresh id whose captured request equals the original's
captured request field-for-field, tagged replay and replay:origin-id. -/
theorem replay_clones_request (e : Engine) (flowID newId : String) (now : Nat)
    (parseURL : String → Option URLInfo) (outcome : UpstreamOutcome)
    (orig : Flow) (cr : CapturedRequest) (ui : URLInfo) (up : Upstream)
    (hget : e.store.Get flowID = some orig)
    (hreq : orig.Request = some cr)
    (hparse : parseURL cr.URL = some ui)
    (hmatch : e.router.Match ui.Path = some up)
    (hprox : e.proxies up.Name = true)
    (hnew : newId ≠ flowID) :
    ∃ f e2, e.Replay flowID newId now parseURL outcome = (Except.ok (some f), e2) ∧
      f.ID = newId ∧ f.ID ≠ flowID ∧ f.Request = some cr ∧
      "replay" ∈ f.Tags ∧ ("replay:" ++ flowID) ∈ f.Tags := by
  simp only [Engine.Replay, hget, hreq, rebuildRequest, hparse, Option.map_some', hmatch,
    hprox, if_true, newFlow]
  simp only [FlowStore.Get, FlowStore.mutate, FlowStore.Add]
  refine ⟨_, _, rfl, ?_, ?_, ?_, ?_, ?_⟩ <;>
    simp only [reduceIte, List.nil_append]
  · rw [(dispatchFlow_preserves _ outcome e.maxBodySize).1]
  · rw [(dispatchFlow_preserves _ outcome e.maxBodySize).1]
    simpa using hnew
  · rw [(dispatchFlow_preserves _ outcome e.maxBodySize).2.1, cloneRequest_eq]
  · rw [(dispatchFlow_preserves _ outcome e.maxBodySize).2.2]
    simp
  · rw [(dispatchFlow_preserves _ outcome e.maxBodySize).2.2]
    simp

/-- Witness for C5 on the concrete engine. -/
theorem replay_clones_request_witness :
    (w5eng.store.Get "orig" = some w5orig ∧ w5orig.Request = some w5cr ∧
     w5parse w5cr.URL = some { Path := "/x", Host := "h" } ∧
     w5eng.router.Match "/x" = some w5up ∧ w5eng.proxies w5up.Name = true ∧
     "new1" ≠ "orig") ∧
    (∃ f e2, w5eng.Replay "orig" "new1" 5 w5parse w5out = (Except.ok (some f), e2) ∧
      f.ID = "new1" ∧ f.ID ≠ "orig" ∧ f.Request = some w5cr ∧
      "replay" ∈ f.Tags ∧ ("replay:" ++ "orig") ∈ f.Tags) :=
  ⟨⟨by decide, rfl, rfl, by decide, by decide, by decide⟩,
   replay_clones_request w5eng "orig" "new1" 5 w5parse w5out w5orig w5cr
     { Path := "/x", Host := "h" } w5up (by decide) rfl rfl (by decide) (by decide)
     (by decide)⟩

/-- Reduction of a small modulus. -/
theorem mod_small_cases (a n : Nat) (_hn : 0 < n) (h : a < 2 * n) :
    a % n = if a < n then a else a - n := by
  by_cases hlt : a < n
  · rw [if_pos hlt, Nat.mod_eq_of_lt hlt]
  · rw [if_neg hlt, Nat.mod_eq_sub_mod (by omega), Nat.mod_eq_of_lt (by omega)]

/-- The empty store satisfies the invariant for the empty list. -/
theorem storeInv_new (c : Int) : StoreInv (NewFlowStore c) [] := by
  refine ⟨?_, ?_, rfl, ?_, ?_, ?_, ?_, ?_⟩ <;>
    simp [NewFlowStore] <;> split <;> omega

/-- Adding a flow with a fresh id refines `modelAdd`. -/
theorem storeInv_add (s : FlowStore) (ms : List Flow) (f : Flow)
    (hinv : StoreInv s ms) (hfresh : f.ID ∉ ms.map Flow.ID) :
    StoreInv (s.Add f) (modelAdd s.capacity ms f) := by
  obtain ⟨hcap, hhead, hcount, hle, hnotfull, hslots, hindex, hnodup⟩ := hinv
  by_cases hfull : s.count = s.capacity
  · -- full ring: the oldest entry, at the head slot, is evicted
    have hmslen : ms.length = s.capacity := by omega
    obtain ⟨m0, mrest, hms⟩ : ∃ m0 mrest, ms = m0 :: mrest := by
      cases ms with
      | nil => exfalso; simp at hmslen; omega
      | cons a l => exact ⟨a, l, rfl⟩
    have hslot0 : s.flows s.head = some m0 := by
      have h0 := hslots 0 (by omega)
      rw [hms] at h0
      simpa [slotOf, hfull, Nat.sub_self, Nat.mod_eq_of_lt hhead] using h0
    have hAdd : s.Add f =
        { s with
          flows := fun i => if i = s.head then some f else s.flows i
          index := fun id => if id = f.ID then some f
            else if id = m0.ID then none else s.index id
          head := (s.head + 1) % s.capacity } := by
      simp only [FlowStore.Add, if_pos hfull, hslot0]
    have hmodel : modelAdd s.capacity ms f = mrest ++ [f] := by
      rw [hms] at hmslen ⊢
      simp [modelAdd, hmslen]
    have hmrest : mrest.length = s.capacity - 1 := by
      rw [hms] at hmslen; simp at hmslen; omega
    have hfreshm : ¬ (f.ID = m0.ID ∨ f.ID ∈ mrest.map Flow.ID) := by
      rw [hms] at hfresh
      simpa using hfresh
    have hnodup2 : (m0.ID :: mrest.map Flow.ID).Nodup := by
      rw [hms] at hnodup
      simpa using hnodup
    have hm0rest : m0.ID ∉ mrest.map Flow.ID := (List.nodup_cons.mp hnodup2).1
    rw [hAdd, hmodel]
    unfold StoreInv slotOf
    dsimp only
    refine ⟨hcap, Nat.mod_lt _ hcap, ?_, by omega, ?_, ?_, ?_, ?_⟩
    · simp only [List.length_append, List.length_singleton]
      omega
    · intro h
      omega
    · -- ring slots
      intro i hi
      by_cases hi2 : i = s.capacity - 1
      · have e1 : (s.head + 1) % s.capacity + (s.capacity - s.count) + i =
            (s.head + 1) % s.capacity + (s.capacity - 1) := by omega
        rw [e1, Nat.mod_add_mod]
        have e2 : s.head + 1 + (s.capacity - 1) = s.head + s.capacity := by omega
        rw [e2, Nat.add_mod_right, Nat.mod_eq_of_lt hhead]
        rw [if_pos rfl, hi2, ← hmrest, List.get?_concat_length]
      · have hlt : i < s.capacity - 1 := by omega
        have e1 : (s.head + 1) % s.capacity + (s.capacity - s.count) + i =
            (s.head + 1) % s.capacity + i := by omega
        rw [e1, Nat.mod_add_mod]
        have hj := mod_small_cases (s.head + 1 + i) s.capacity (by omega) (by omega)
        have hjne : (s.head + 1 + i) % s.capacity ≠ s.head := by
          rw [hj]
          split <;> omega
        rw [if_neg hjne]
        have hold := hslots (i + 1) (by omega)
        rw [slotOf, hms] at hold
        have e2 : s.head + (s.capacity - s.count) + (i + 1) = s.head + 1 + i := by omega
        rw [e2] at hold
        rw [hold, List.get?_cons_succ,
          List.get?_append (by omega : i < mrest.length)]
    · -- index agrees with the model list
      intro id
      rw [List.find?_append]
      by_cases h1 : id = f.ID
      · subst h1
        rw [if_pos rfl]
        have hnone : mrest.find? (fun g => g.ID == f.ID) = none := by
          rw [List.find?_eq_none]
          intro x hx
          simp only [beq_iff_eq]
          intro hxid
          exact hfreshm (Or.inr (hxid ▸ List.mem_map_of_mem Flow.ID hx))
        rw [hnone, Option.none_or, List.find?_cons_of_pos _ (by simp)]
      · rw [if_neg h1]
        have hfone : List.find? (fun g => g.ID == id) [f] = none := by
          rw [List.find?_eq_none]
          intro x hx
          simp only [List.mem_singleton] at hx
          subst hx
          simp only [beq_iff_eq]
          exact fun h => h1 h.symm
        by_cases h2 : id = m0.ID
        · subst h2
          rw [if_pos rfl]
          have hnone : mrest.find? (fun g => g.ID == m0.ID) = none := by
            rw [List.find?_eq_none]
            intro x hx
            simp only [beq_iff_eq]
            intro hxid
            exact hm0rest (hxid ▸ List.mem_map_of_mem Flow.ID hx)
          rw [hnone, Option.none_or, hfone]
        · rw [if_neg h2, hindex id, hms,
            List.find?_cons_of_neg _ (by simp; exact fun h => h2 h.symm), hfone,
            Option.or_none]
    · -- pairwise distinct ids
      rw [List.map_append]
      rw [List.nodup_append]
      refine ⟨(List.nodup_cons.mp hnodup2).2, by simp, ?_⟩
      intro x hx
      simp only [List.map_singleton, List.mem_singleton]
      intro hxf
      exact hfreshm (Or.inr (hxf ▸ hx))
  · -- ring below capacity: plain append
    have hAdd : s.Add f =
        { s with
          flows := fun i => if i = s.head then some f else s.flows i
          index := fun id => if id = f.ID then some f else s.index id
          head := (s.head + 1) % s.capacity
          count := s.count + 1 } := by
      simp only [FlowStore.Add, if_neg hfull]
    have hcountlt : s.count < s.capacity := by omega
    have hheadeq : s.head = s.count := hnotfull hcountlt
    have hmodel : modelAdd s.capacity ms f = ms ++ [f] := by
      simp [modelAdd]
      intro h
      omega
    rw [hAdd, hmodel]
    unfold StoreInv slotOf
    dsimp only
    refine ⟨hcap, Nat.mod_lt _ hcap, ?_, by omega, ?_, ?_, ?_, ?_⟩
    · simp only [List.length_append, List.length_singleton]
      omega
    · intro hlt
      rw [Nat.mod_eq_of_lt (by omega)]
      omega
    · -- ring slots: slot i stays i
      intro i hi
      have hslot : ((s.count + 1) % s.capacity + (s.capacity - (s.count + 1)) + i)
          % s.capacity = i := by
        rcases Nat.lt_or_ge (s.count + 1) s.capacity with hc | hc
        · rw [Nat.mod_eq_of_lt hc]
          have e : s.count + 1 + (s.capacity - (s.count + 1)) + i = s.capacity + i := by
            omega
          rw [e, Nat.add_mod_left, Nat.mod_eq_of_lt (by omega)]
        · have hceq : s.count + 1 = s.capacity := by omega
          rw [hceq, Nat.mod_self]
          have e : 0 + (s.capacity - s.capacity) + i = i := by omega
          rw [e, Nat.mod_eq_of_lt (by omega)]
      rw [hheadeq, hslot]
      by_cases hi2 : i = s.count
      · rw [if_pos hi2, hi2, hcount, List.get?_concat_length]
      · rw [if_neg hi2]
        have hold := hslots i (by omega)
        rw [slotOf, hheadeq] at hold
        have e : s.count + (s.capacity - s.count) + i = s.capacity + i := by omega
        rw [e, Nat.add_mod_left, Nat.mod_eq_of_lt (by omega)] at hold
        rw [hold, List.get?_append (by omega : i < ms.length)]
    · -- index
      intro id
      rw [List.find?_append]
      by_cases h1 : id = f.ID
      · subst h1
        rw [if_pos rfl]
        have hnone : ms.find? (fun g => g.ID == f.ID) = none := by
          rw [List.find?_eq_none]
          intro x hx
          simp only [beq_iff_eq]
          intro hxid
          exact hfresh (hxid ▸ List.mem_map_of_mem Flow.ID hx)
        rw [hnone, Option.none_or, List.find?_cons_of_pos _ (by simp)]
      · rw [if_neg h1, hindex id]
        have hfone : List.find? (fun g => g.ID == id) [f] = none := by
          rw [List.find?_eq_none]
          intro x hx
          simp only [List.mem_singleton] at hx
          subst hx
          simp only [beq_iff_eq]
          exact fun h => h1 h.symm
        rw [hfone, Option.or_none]
    · -- pairwise distinct ids
      rw [List.map_append, List.nodup_append]
      refine ⟨hnodup, by simp, ?_⟩
      intro x hx
      simp only [List.map_singleton, List.mem_singleton]
      intro hxf
      exact hfresh (hxf ▸ hx)

/-- Reading consecutive slots through a function that agrees with a list
reproduces the list. -/
theorem filterMap_range' (g : Nat → Option Flow) :
    ∀ (n k : Nat) (l : List Flow), l.length = n →
      (∀ i, i < n → g (k + i) = l.get? i) →
      (List.range' k n).filterMap g = l := by
  intro n
  induction n with
  | zero =>
    intro k l hl _
    have hnil : l = [] := List.length_eq_zero.mp hl
    subst hnil
    simp
  | succ m ih =>
    intro k l hl hg
    obtain ⟨a, l2, rfl⟩ : ∃ a l2, l = a :: l2 := by
      cases l with
      | nil => simp at hl
      | cons a l2 => exact ⟨a, l2, rfl⟩
    have h0 : g k = some a := by
      have := hg 0 (by omega)
      simpa using this
    rw [List.range'_succ, List.filterMap_cons_some h0]
    congr 1
    refine ih (k + 1) l2 (by simpa using hl) ?_
    intro i hi
    have := hg (i + 1) (by omega)
    have e : k + (i + 1) = k + 1 + i := by omega
    rw [e] at this
    simpa using this

/-- The snapshot `All` returns exactly the abstract list. -/
theorem storeInv_all (s : FlowStore) (ms : List Flow) (hinv : StoreInv s ms) :
    s.All = ms := by
  obtain ⟨hcap, hhead, hcount, hle, hnotfull, hslots, hindex, hnodup⟩ := hinv
  unfold FlowStore.All
  by_cases h0 : s.count = 0
  · rw [if_pos h0]
    have : ms.length = 0 := by omega
    exact (List.length_eq_zero.mp this).symm
  · rw [if_neg h0]
    by_cases hlt : s.count < s.capacity
    · rw [if_pos hlt]
      rw [List.range_eq_range']
      refine filterMap_range' _ s.count 0 ms (by omega) ?_
      intro i hi
      have hold := hslots i hi
      rw [slotOf, hnotfull hlt] at hold
      have e : s.count + (s.capacity - s.count) + i = s.capacity + i := by omega
      rw [e, Nat.add_mod_left, Nat.mod_eq_of_lt (by omega)] at hold
      simpa using hold
    · rw [if_neg hlt]
      have hfull : s.count = s.capacity := by omega
      rw [List.range_eq_range']
      refine filterMap_range' _ s.capacity 0 ms (by omega) ?_
      intro i hi
      have hold := hslots i (by omega)
      rw [slotOf] at hold
      have e : s.head + (s.capacity - s.count) + i = s.head + i := by omega
      rw [e] at hold
      simpa using hold

/-- `Get` answers exactly by the abstract list. -/
theorem storeInv_get (s : FlowStore) (ms : List Flow) (hinv : StoreInv s ms)
    (id : String) : s.Get id = ms.find? fun g => g.ID == id :=
  hinv.2.2.2.2.2.2.1 id

/-- `Clear` refines the empty list. -/
theorem storeInv_clear (s : FlowStore) (ms : List Flow) (hinv : StoreInv s ms) :
    StoreInv s.Clear [] := by
  obtain ⟨hcap, _⟩ := hinv
  unfold FlowStore.Clear StoreInv slotOf
  dsimp only
  exact ⟨hcap, hcap, rfl, by omega, fun _ => rfl, fun i hi => absurd hi (by omega),
    fun _ => rfl, by simp⟩

/-- `Add` never changes the capacity. -/
theorem add_capacity (s : FlowStore) (f : Flow) : (s.Add f).capacity = s.capacity := by
  unfold FlowStore.Add
  split
  · split <;> rfl
  · rfl

/-- No store call changes the capacity. -/
theorem applyStoreOp_capacity (s : FlowStore) (op : StoreOp) :
    (applyStoreOp s op).capacity = s.capacity := by
  cases op with
  | add f => exact add_capacity s f
  | update f => rfl
  | clear => rfl

/-- Ids surviving a model add come from the old list or the new flow. -/
theorem mem_modelAdd_ids (cap : Nat) (ms : List Flow) (f : Flow) (x : String)
    (hx : x ∈ (modelAdd cap ms f).map Flow.ID) : x ∈ ms.map Flow.ID ∨ x = f.ID := by
  by_cases h : ms.length = cap
  · rw [modelAdd, if_pos h, List.map_append] at hx
    rcases List.mem_append.mp hx with h2 | h2
    · left
      have htail : x ∈ (ms.map Flow.ID).tail := by
        rw [← List.map_tail]
        exact h2
      exact List.mem_of_mem_tail htail
    · right
      simpa using h2
  · rw [modelAdd, if_neg h, List.map_append] at hx
    rcases List.mem_append.mp hx with h2 | h2
    · left
      exact h2
    · right
      simpa using h2

/-- A call sequence whose added ids are fresh and pairwise distinct keeps
the store in refinement with the model list. -/
theorem runStore_inv : ∀ (ops : List StoreOp) (s : FlowStore) (ms : List Flow),
    StoreInv s ms → (addIDs ops).Nodup →
    (∀ id ∈ addIDs ops, id ∉ ms.map Flow.ID) →
    StoreInv (runStore s ops) (runModel s.capacity ms ops) := by
  intro ops
  induction ops with
  | nil =>
    intro s ms hinv _ _
    exact hinv
  | cons op rest ih =>
    intro s ms hinv hnodup hdisj
    cases op with
    | add f =>
      have hfresh : f.ID ∉ ms.map Flow.ID := hdisj f.ID (by simp [addIDs])
      have hnodup2 : (f.ID :: addIDs rest).Nodup := by simpa [addIDs] using hnodup
      have hinv2 := storeInv_add s ms f hinv hfresh
      have hres := ih (s.Add f) (modelAdd s.capacity ms f) hinv2
        (List.nodup_cons.mp hnodup2).2 ?_
      · have hcap := add_capacity s f
        rw [hcap] at hres
        exact hres
      · intro id hid hmem
        rcases mem_modelAdd_ids s.capacity ms f id hmem with h | h
        · exact hdisj id (by simp [addIDs, hid]) h
        · exact (List.nodup_cons.mp hnodup2).1 (h ▸ hid)
    | update f =>
      exact ih s ms hinv (by simpa [addIDs] using hnodup)
        (by intro id hid; exact hdisj id (by simpa [addIDs] using hid))
    | clear =>
      have hinv2 := storeInv_clear s ms hinv
      have hres := ih s.Clear [] hinv2 (by simpa [addIDs] using hnodup) (by simp)
      exact hres

/-- In a list of flows with pairwise distinct ids, searching for a stored
flow's id finds that flow. -/
theorem find?_id_of_mem : ∀ ms : List Flow, (ms.map Flow.ID).Nodup →
    ∀ f ∈ ms, ms.find? (fun g => g.ID == f.ID) = some f := by
  intro ms
  induction ms with
  | nil =>
    intro _ f hf
    simp at hf
  | cons a rest ih =>
    intro hnodup f hf
    have hn2 : (a.ID :: rest.map Flow.ID).Nodup := by simpa using hnodup
    rcases List.mem_cons.mp hf with rfl | hrest
    · rw [List.find?_cons_of_pos _ (by simp)]
    · have hne : ¬ (a.ID == f.ID) = true := by
        simp only [beq_iff_eq]
        intro h
        exact (List.nodup_cons.mp hn2).1 (h ▸ List.mem_map_of_mem Flow.ID hrest)
      rw [@List.find?_cons_of_neg _ (fun g => g.ID == f.ID) a rest hne]
      exact ih (List.nodup_cons.mp hn2).2 f hrest

/-- C9: after any sequence of Add, Update and Clear calls on a fresh store
(added flows carrying pairwise distinct ids, as uuids do), the ring and the
id index agree: Count equals the number of flows All returns, every flow in
All is retrievable via Get of its id, and Get is nil on every id not
currently stored. -/
theorem flowStore_ring_index_agree (c : Int) (ops : List StoreOp)
    (hnodup : (addIDs ops).Nodup) :
    (runStore (NewFlowStore c) ops).Count = (runStore (NewFlowStore c) ops).All.length ∧
    (∀ f ∈ (runStore (NewFlowStore c) ops).All,
      (runStore (NewFlowStore c) ops).Get f.ID = some f) ∧
    (∀ id, id ∉ (runStore (NewFlowStore c) ops).All.map Flow.ID →
      (runStore (NewFlowStore c) ops).Get id = none) := by
  have hinv := runStore_inv ops (NewFlowStore c) [] (storeInv_new c) hnodup (by simp)
  have hall := storeInv_all _ _ hinv
  have hcount := hinv.2.2.1
  have hmsnodup := hinv.2.2.2.2.2.2.2
  refine ⟨?_, ?_, ?_⟩
  · rw [FlowStore.Count, hall]
    exact hcount
  · intro f hf
    rw [hall] at hf
    rw [storeInv_get _ _ hinv f.ID]
    exact find?_id_of_mem _ hmsnodup f hf
  · intro id hid
    rw [hall] at hid
    rw [storeInv_get _ _ hinv id]
    rw [List.find?_eq_none]
    intro x hx
    simp only [beq_iff_eq]
    intro h
    exact hid (h ▸ List.mem_map_of_mem Flow.ID hx)

/-- Witness for C9 on the concrete call sequence at capacity 2. -/
theorem flowStore_ring_index_agree_witness :
    (addIDs w9ops).Nodup ∧
    ((runStore (NewFlowStore 2) w9ops).Count =
        (runStore (NewFlowStore 2) w9ops).All.length ∧
     (∀ f ∈ (runStore (NewFlowStore 2) w9ops).All,
        (runStore (NewFlowStore 2) w9ops).Get f.ID = some f) ∧
     (∀ id, id ∉ (runStore (NewFlowStore 2) w9ops).All.map Flow.ID →
        (runStore (NewFlowStore 2) w9ops).Get id = none)) :=
  ⟨by decide, flowStore_ring_index_agree 2 w9ops (by decide)⟩

/-- Folding the model add keeps exactly the most recent `cap` flows. -/
theorem foldl_modelAdd (cap : Nat) (hcap : 0 < cap) :
    ∀ fs : List Flow, fs.foldl (modelAdd cap) [] = fs.drop (fs.length - cap) := by
  intro fs
  induction fs using List.reverseRecOn with
  | nil => simp
  | append_singleton l a ih =>
    rw [List.foldl_append, ih]
    simp only [List.foldl_cons, List.foldl_nil]
    by_cases h : l.length < cap
    · have h0 : l.length - cap = 0 := by omega
      have h1 : (l ++ [a]).length - cap = 0 := by simp; omega
      rw [h0, h1, List.drop_zero, List.drop_zero, modelAdd, if_neg (by omega)]
    · have hlen : (l.drop (l.length - cap)).length = cap := by
        rw [List.length_drop]
        omega
      rw [modelAdd, if_pos hlen, List.tail_drop]
      have h1 : (l ++ [a]).length - cap = l.length - cap + 1 := by simp; omega
      rw [h1, List.drop_append_of_le_length (by omega)]

/-- The add ids of a pure add sequence are the flow ids. -/
theorem addIDs_map_add : ∀ fs : List Flow, addIDs (fs.map StoreOp.add) = fs.map Flow.ID
  | [] => rfl
  | f :: fs => by rw [List.map_cons, addIDs, addIDs_map_add fs, List.map_cons]

/-- A pure add sequence runs the model fold. -/
theorem runModel_map_add (cap : Nat) (fs : List Flow) :
    runModel cap [] (fs.map StoreOp.add) = fs.foldl (modelAdd cap) [] := by
  rw [runModel, List.foldl_map]
  rfl

/-- The capacity argument N, positive, is the effective capacity. -/
theorem newFlowStore_pos_capacity (N : Nat) (hN : 0 < N) :
    (NewFlowStore (N : Int)).capacity = N := by
  simp [NewFlowStore]
  omega

/-- C3: adding more flows than the capacity N (ids pairwise distinct)
leaves Count at most N, All returns exactly the N most recent flows in
insertion order, and after the (N+1)th insertion the oldest flow is in
neither All nor Get of its id. -/
theorem flowStore_eviction (N : Nat) (fs : List Flow)
    (hN : 0 < N) (hlen : N < fs.length) (hnodup : (fs.map Flow.ID).Nodup) :
    (runStore (NewFlowStore (N : Int)) (fs.map StoreOp.add)).Count ≤ N ∧
    (runStore (NewFlowStore (N : Int)) (fs.map StoreOp.add)).All =
      fs.drop (fs.length - N) ∧
    (∀ f0 rest, fs = f0 :: rest →
      f0 ∉ (runStore (NewFlowStore (N : Int)) ((fs.take (N + 1)).map StoreOp.add)).All ∧
      (runStore (NewFlowStore (N : Int)) ((fs.take (N + 1)).map StoreOp.add)).Get f0.ID
        = none) := by
  have hcap := newFlowStore_pos_capacity N hN
  have hinvAll := runStore_inv (fs.map StoreOp.add) (NewFlowStore (N : Int)) []
    (storeInv_new _) (by rw [addIDs_map_add]; exact hnodup) (by simp)
  rw [runModel_map_add, hcap, foldl_modelAdd N hN] at hinvAll
  have hallAll := storeInv_all _ _ hinvAll
  refine ⟨?_, hallAll, ?_⟩
  · have h1 := hinvAll.2.2.1
    have h2 : (fs.drop (fs.length - N)).length ≤ N := by
      rw [List.length_drop]
      omega
    rw [FlowStore.Count]
    omega
  · intro f0 rest hfs
    have htake : N + 1 ≤ fs.length := by omega
    have hnodupT : ((fs.take (N + 1)).map Flow.ID).Nodup := by
      rw [List.map_take]
      exact (List.take_sublist _ _).nodup (by simpa using hnodup)
    have hinvT := runStore_inv ((fs.take (N + 1)).map StoreOp.add)
      (NewFlowStore (N : Int)) [] (storeInv_new _)
      (by rw [addIDs_map_add]; exact hnodupT) (by simp)
    rw [runModel_map_add, hcap, foldl_modelAdd N hN] at hinvT
    have hallT := storeInv_all _ _ hinvT
    have hlenT : (fs.take (N + 1)).length = N + 1 := by
      rw [List.length_take]
      omega
    have hmodelT : (fs.take (N + 1)).drop ((fs.take (N + 1)).length - N) =
        (rest.take N) := by
      rw [hlenT]
      have e1 : N + 1 - N = 1 := by omega
      rw [e1, hfs, List.take_cons]
      · rfl
      · omega
    have hf0rest : f0.ID ∉ rest.map Flow.ID := by
      rw [hfs] at hnodup
      exact (List.nodup_cons.mp (by simpa using hnodup)).1
    constructor
    · rw [hallT, hmodelT]
      intro hmem
      exact hf0rest
        (List.mem_map_of_mem Flow.ID ((List.take_sublist _ _).mem hmem))
    · rw [storeInv_get _ _ hinvT f0.ID, hmodelT, List.find?_eq_none]
      intro x hx
      simp only [beq_iff_eq]
      intro hxid
      exact hf0rest (hxid ▸
        List.mem_map_of_mem Flow.ID ((List.take_sublist _ _).mem hx))

/-- Witness for C3: capacity 2, three insertions. -/
theorem flowStore_eviction_witness :
    (0 < 2 ∧ 2 < w3fs.length ∧ (w3fs.map Flow.ID).Nodup) ∧
    ((runStore (NewFlowStore (2 : Int)) (w3fs.map StoreOp.add)).Count ≤ 2 ∧
     (runStore (NewFlowStore (2 : Int)) (w3fs.map StoreOp.add)).All =
       w3fs.drop (w3fs.length - 2) ∧
     (∀ f0 rest, w3fs = f0 :: rest →
       f0 ∉ (runStore (NewFlowStore (2 : Int))
               ((w3fs.take (2 + 1)).map StoreOp.add)).All ∧
       (runStore (NewFlowStore (2 : Int))
           ((w3fs.take (2 + 1)).map StoreOp.add)).Get f0.ID = none)) :=
  ⟨⟨by decide, by decide, by decide⟩,
   flowStore_eviction 2 w3fs (by decide) (by decide) (by decide)⟩

/-! ## Panic-freedom of the filter compiler (claim C7)

Every index into the expression in filter.go sits behind a bounds test, so
the `PErr.panicked` outcome of `readAt` is unreachable; this is proved for
every input, not just well-formed ones. -/

theorem exc_bind_ok {α β : Type} (a : α) (f : α → Except PErr β) :
    (Except.ok a >>= f) = f a := rfl

theorem exc_bind_err {α β : Type} (e : PErr) (f : α → Except PErr β) :
    ((Except.error e : Except PErr α) >>= f) = Except.error e := rfl

theorem ok_no_panic {α : Type} (a : α) :
    (Except.ok a : Except PErr α) ≠ Except.error PErr.panicked := fun h =>
  Except.noConfusion h

theorem pure_no_panic {α : Type} (a : α) :
    (pure a : Except PErr α) ≠ Except.error PErr.panicked := fun h =>
  Except.noConfusion h

theorem msg_no_panic {α : Type} (s : String) :
    (Except.error (PErr.msg s) : Except PErr α) ≠ Except.error PErr.panicked := by
  intro h
  injection h with h
  exact PErr.noConfusion h

theorem fuelOut_no_panic {α : Type} :
    (Except.error PErr.fuelOut : Except PErr α) ≠ Except.error PErr.panicked := by
  intro h
  injection h with h
  exact PErr.noConfusion h

/-- A bind panics only if a component panics. -/
theorem bind_no_panic {α β : Type} (x : Except PErr α) (f : α → Except PErr β)
    (hx : x ≠ Except.error PErr.panicked)
    (hf : ∀ a, f a ≠ Except.error PErr.panicked) :
    (x >>= f) ≠ Except.error PErr.panicked := by
  cases x with
  | error e =>
    rw [exc_bind_err]
    intro h
    injection h with h
    exact hx (by rw [h])
  | ok a =>
    rw [exc_bind_ok]
    exact hf a

/-- A guarded index never panics. -/
theorem readAt_ok (input : List Char) (pos : Nat) (h : pos < input.length) :
    readAt input pos = Except.ok (input.get ⟨pos, h⟩) := by
  unfold readAt
  rw [List.get?_eq_get h]

theorem parseQuoted_no_panic (input : List Char) (pos : Nat) :
    parseQuoted input pos ≠ Except.error PErr.panicked := by
  simp only [parseQuoted]
  split
  · exact msg_no_panic _
  · exact ok_no_panic _

theorem parseArg_no_panic (input : List Char) (pos : Nat) :
    parseArg input pos ≠ Except.error PErr.panicked := by
  simp only [parseArg]
  by_cases h1 : skipWS input pos ≥ input.length
  · rw [if_pos h1]
    exact msg_no_panic _
  · rw [if_neg h1]
    rw [readAt_ok _ _ (by omega), exc_bind_ok]
    split
    · exact parseQuoted_no_panic _ _
    · split
      · exact msg_no_panic _
      · exact ok_no_panic _

theorem parsePrimitive_no_panic (input : List Char) (pos : Nat) :
    parsePrimitive input pos ≠ Except.error PErr.panicked := by
  simp only [parsePrimitive]
  by_cases h1 : skipWS input pos + 1 ≥ input.length
  · rw [if_pos h1]
    exact msg_no_panic _
  · -- the inner length guard is the identical condition, discharged by the
    -- same rewrite
    rw [if_neg h1]
    rw [readAt_ok _ _ (by omega), exc_bind_ok]
    split
    · exact msg_no_panic _
    · rw [readAt_ok _ _ (by omega), exc_bind_ok]
      refine bind_no_panic _ _ (parseArg_no_panic _ _) ?_
      intro a
      obtain ⟨arg, p⟩ := a
      repeat' split
      all_goals first
        | exact pure_no_panic _
        | exact msg_no_panic _

theorem parseRun_no_panic : ∀ (fuel : Nat) (input : List Char) (lvl : PLevel)
    (pos : Nat), parseRun input fuel lvl pos ≠ Except.error PErr.panicked := by
  intro fuel
  induction fuel with
  | zero =>
    intro input lvl pos
    cases lvl <;> exact fuelOut_no_panic
  | succ fuel ih =>
    intro input lvl pos
    cases lvl with
    | or =>
      exact bind_no_panic _ _ (ih input PLevel.and pos) fun r =>
        ih input (PLevel.orLoop r.1) r.2
    | orLoop left =>
      show (let p := skipWS input pos
        if p + 1 < input.length then
          readAt input p >>= fun c =>
            if c = '|' then
              parseRun input fuel PLevel.and (p + 1) >>= fun r =>
                parseRun input fuel (PLevel.orLoop fun f => left f || r.1 f) r.2
            else pure (left, p)
        else pure (left, p)) ≠ Except.error PErr.panicked
      by_cases h1 : skipWS input pos + 1 < input.length
      · rw [if_pos h1]
        rw [readAt_ok _ _ (by omega), exc_bind_ok]
        split
        · exact bind_no_panic _ _ (ih input PLevel.and _) fun r =>
            ih input (PLevel.orLoop _) r.2
        · exact pure_no_panic _
      · rw [if_neg h1]
        exact pure_no_panic _
    | and =>
      exact bind_no_panic _ _ (ih input PLevel.not pos) fun r =>
        ih input (PLevel.andLoop r.1) r.2
    | andLoop left =>
      show (let p := skipWS input pos
        if p < input.length then
          readAt input p >>= fun c =>
            if c = '&' then
              parseRun input fuel PLevel.not (p + 1) >>= fun r =>
                parseRun input fuel (PLevel.andLoop fun f => left f && r.1 f) r.2
            else pure (left, p)
        else pure (left, p)) ≠ Except.error PErr.panicked
      by_cases h1 : skipWS input pos < input.length
      · rw [if_pos h1]
        rw [readAt_ok _ _ h1, exc_bind_ok]
        split
        · exact bind_no_panic _ _ (ih input PLevel.not _) fun r =>
            ih input (PLevel.andLoop _) r.2
        · exact pure_no_panic _
      · rw [if_neg h1]
        exact pure_no_panic _
    | not =>
      show (let p := skipWS input pos
        if p < input.length then
          readAt input p >>= fun c =>
            if c = '!' then
              parseRun input fuel PLevel.atom (p + 1) >>= fun r =>
                pure ((fun f => ! r.1 f), r.2)
            else parseRun input fuel PLevel.atom p
        else parseRun input fuel PLevel.atom p) ≠ Except.error PErr.panicked
      by_cases h1 : skipWS input pos < input.length
      · rw [if_pos h1]
        rw [readAt_ok _ _ h1, exc_bind_ok]
        split
        · exact bind_no_panic _ _ (ih input PLevel.atom _) fun r => pure_no_panic _
        · exact ih input PLevel.atom _
      · rw [if_neg h1]
        exact ih input PLevel.atom _
    | atom =>
      show (let p := skipWS input pos
        if p ≥ input.length then
          Except.error (PErr.msg
            ("unexpected end of expression at position " ++ toString p))
        else
          readAt input p >>= fun c =>
            if c = '(' then
              parseRun input fuel PLevel.or (p + 1) >>= fun r =>
                (let p2 := skipWS input r.2
                 if p2 ≥ input.length then
                   Except.error (PErr.msg
                     ("expected closing \x27)\x27 at position " ++ toString p2))
                 else
                   readAt input p2 >>= fun c2 =>
                     if c2 = ')' then pure (r.1, p2 + 1)
                     else Except.error (PErr.msg
                       ("expected closing \x27)\x27 at position " ++ toString p2)))
            else parsePrimitive input p) ≠ Except.error PErr.panicked
      by_cases h1 : skipWS input pos ≥ input.length
      · rw [if_pos h1]
        exact msg_no_panic _
      · rw [if_neg h1]
        rw [readAt_ok _ _ (by omega), exc_bind_ok]
        split
        · refine bind_no_panic _ _ (ih input PLevel.or _) ?_
          intro r
          by_cases h2 : skipWS input r.2 ≥ input.length
          · rw [if_pos h2]
            exact msg_no_panic _
          · rw [if_neg h2]
            rw [readAt_ok _ _ (by omega), exc_bind_ok]
            split
            · exact pure_no_panic _
            · exact msg_no_panic _
        · exact parsePrimitive_no_panic _ _

/-- The compiler never panics: on every input, including malformed ones,
Parse returns a compiled predicate or an error value, never the
out-of-range panic outcome. -/
theorem Parse_no_panic (s : String) : Parse s ≠ Except.error PErr.panicked := by
  simp only [Parse]
  split
  · exact ok_no_panic _
  · cases h : parseOr (goTrimSpace s).data (parseFuel (goTrimSpace s).data) 0 with
    | error e =>
      have hp := parseRun_no_panic (parseFuel (goTrimSpace s).data)
        (goTrimSpace s).data PLevel.or 0
      rw [show parseOr (goTrimSpace s).data (parseFuel (goTrimSpace s).data) 0 =
        parseRun (goTrimSpace s).data (parseFuel (goTrimSpace s).data) PLevel.or 0
        from rfl] at h
      rw [h] at hp
      dsimp only
      intro hcontra
      injection hcontra with hc2
      rw [hc2] at hp
      exact hp rfl
    | ok r =>
      obtain ⟨f, p⟩ := r
      dsimp only
      split
      · exact msg_no_panic _
      · exact ok_no_panic _

/-- A contiguous occurrence survives extending the haystack on the
right. -/
theorem listHasSub_append_left (hay tail pat : List Char)
    (h : listHasSub hay pat = true) : listHasSub (hay ++ tail) pat = true := by
  simp only [listHasSub, List.any_eq_true] at h ⊢
  obtain ⟨i, hi, hpre⟩ := h
  simp only [List.mem_range] at hi
  refine ⟨i, ?_, ?_⟩
  · simp only [List.mem_range, List.length_append]
    omega
  · rw [List.isPrefixOf_iff_prefix] at hpre ⊢
    rw [List.drop_append_eq_append_drop]
    exact hpre.trans (List.prefix_append _ _)

/-- A contiguous occurrence survives extending the haystack on the
left. -/
theorem listHasSub_append_right (pre hay pat : List Char)
    (h : listHasSub hay pat = true) : listHasSub (pre ++ hay) pat = true := by
  simp only [listHasSub, List.any_eq_true] at h ⊢
  obtain ⟨i, hi, hpre⟩ := h
  simp only [List.mem_range] at hi
  refine ⟨pre.length + i, ?_, ?_⟩
  · simp only [List.mem_range, List.length_append]
    omega
  · have hdrop : (pre ++ hay).drop (pre.length + i) = hay.drop i := by
      rw [List.drop_append_eq_append_drop, List.drop_eq_nil_of_le (by omega),
        List.nil_append]
      congr 1
      omega
    rw [hdrop]
    exact hpre

/-- A message carrying an offset still carries it after a suffix is
appended. -/
theorem hasPosition_append (a b : String) (h : hasPosition a = true) :
    hasPosition (a ++ b) = true := by
  simp only [hasPosition] at h ⊢
  rw [String.data_append]
  exact listHasSub_append_left _ _ _ h

/-- A message carrying an offset still carries it after a prefix is
prepended. -/
theorem hasPosition_append_right (a b : String) (h : hasPosition b = true) :
    hasPosition (a ++ b) = true := by
  simp only [hasPosition] at h ⊢
  rw [String.data_append]
  exact listHasSub_append_right _ _ _ h

/-- Every message error of parseQuoted carries a byte offset. -/
theorem parseQuoted_positioned (input : List Char) (pos : Nat) (m : String)
    (h : parseQuoted input pos = Except.error (PErr.msg m)) :
    hasPosition m = true := by
  simp only [parseQuoted] at h
  split at h
  · injection h with h
    injection h with h
    subst h
    exact hasPosition_append _ _ (by decide)
  · exact Except.noConfusion h

/-- Every message error of parseArg carries a byte offset. -/
theorem parseArg_positioned (input : List Char) (pos : Nat) (m : String)
    (h : parseArg input pos = Except.error (PErr.msg m)) :
    hasPosition m = true := by
  simp only [parseArg] at h
  by_cases h1 : skipWS input pos ≥ input.length
  · rw [if_pos h1] at h
    injection h with h
    injection h with h
    subst h
    exact hasPosition_append _ _ (by decide)
  · rw [if_neg h1] at h
    rw [readAt_ok _ _ (by omega), exc_bind_ok] at h
    split at h
    · exact parseQuoted_positioned _ _ _ h
    · split at h
      · injection h with h
        injection h with h
        subst h
        exact hasPosition_append _ _ (by decide)
      · exact Except.noConfusion h

/-- Every message error of parsePrimitive carries a byte offset. -/
theorem parsePrimitive_positioned (input : List Char) (pos : Nat) (m : String)
    (h : parsePrimitive input pos = Except.error (PErr.msg m)) :
    hasPosition m = true := by
  simp only [parsePrimitive] at h
  by_cases h1 : skipWS input pos + 1 ≥ input.length
  · rw [if_pos h1] at h
    injection h with h
    injection h with h
    subst h
    exact hasPosition_append _ _ (by decide)
  · rw [if_neg h1] at h
    rw [readAt_ok _ _ (by omega), exc_bind_ok] at h
    split at h
    · injection h with h
      injection h with h
      subst h
      exact hasPosition_append _ _ (by decide)
    · rw [readAt_ok _ _ (by omega), exc_bind_ok] at h
      cases ha : parseArg input (skipWS input (skipWS input pos + 1 + 1)) with
      | error e =>
        rw [ha, exc_bind_err] at h
        injection h with h
        subst h
        exact parseArg_positioned _ _ _ ha
      | ok a =>
        rw [ha, exc_bind_ok] at h
        obtain ⟨arg, p⟩ := a
        repeat' split at h
        all_goals first
          | exact Except.noConfusion h
          | (injection h with h
             injection h with h
             subst h
             exact hasPosition_append _ _ (hasPosition_append_right _ _ (by decide)))

/-- Every message error of the recursive descent carries a byte offset. -/
theorem parseRun_positioned : ∀ (fuel : Nat) (input : List Char) (lvl : PLevel)
    (pos : Nat) (m : String),
    parseRun input fuel lvl pos = Except.error (PErr.msg m) →
    hasPosition m = true := by
  intro fuel
  induction fuel with
  | zero =>
    intro input lvl pos m h
    cases lvl <;> exact absurd (Except.error.inj h) (fun hc => PErr.noConfusion hc)
  | succ fuel ih =>
    intro input lvl pos m h
    cases lvl with
    | or =>
      replace h : (parseRun input fuel PLevel.and pos >>= fun r =>
          parseRun input fuel (PLevel.orLoop r.1) r.2) =
          Except.error (PErr.msg m) := h
      cases h2 : parseRun input fuel PLevel.and pos with
      | error e =>
        rw [h2, exc_bind_err] at h
        injection h with h
        subst h
        exact ih _ _ _ _ h2
      | ok r =>
        rw [h2, exc_bind_ok] at h
        exact ih _ _ _ _ h
    | orLoop left =>
      replace h : (if skipWS input pos + 1 < input.length then
          readAt input (skipWS input pos) >>= fun c =>
            if c = '|' then
              parseRun input fuel PLevel.and (skipWS input pos + 1) >>= fun r =>
                parseRun input fuel (PLevel.orLoop fun f => left f || r.1 f) r.2
            else pure (left, skipWS input pos)
        else pure (left, skipWS input pos)) = Except.error (PErr.msg m) := h
      by_cases h1 : skipWS input pos + 1 < input.length
      · rw [if_pos h1] at h
        rw [readAt_ok _ _ (by omega), exc_bind_ok] at h
        split at h
        · cases h2 : parseRun input fuel PLevel.and (skipWS input pos + 1) with
          | error e =>
            rw [h2, exc_bind_err] at h
            injection h with h
            subst h
            exact ih _ _ _ _ h2
          | ok r =>
            rw [h2, exc_bind_ok] at h
            exact ih _ _ _ _ h
        · exact Except.noConfusion h
      · rw [if_neg h1] at h
        exact Except.noConfusion h
    | and =>
      replace h : (parseRun input fuel PLevel.not pos >>= fun r =>
          parseRun input fuel (PLevel.andLoop r.1) r.2) =
          Except.error (PErr.msg m) := h
      cases h2 : parseRun input fuel PLevel.not pos with
      | error e =>
        rw [h2, exc_bind_err] at h
        injection h with h
        subst h
        exact ih _ _ _ _ h2
      | ok r =>
        rw [h2, exc_bind_ok] at h
        exact ih _ _ _ _ h
    | andLoop left =>
      replace h : (if skipWS input pos < input.length then
          readAt input (skipWS input pos) >>= fun c =>
            if c = '&' then
              parseRun input fuel PLevel.not (skipWS input pos + 1) >>= fun r =>
                parseRun input fuel (PLevel.andLoop fun f => left f && r.1 f) r.2
            else pure (left, skipWS input pos)
        else pure (left, skipWS input pos)) = Except.error (PErr.msg m) := h
      by_cases h1 : skipWS input pos < input.length
      · rw [if_pos h1] at h
        rw [readAt_ok _ _ h1, exc_bind_ok] at h
        split at h
        · cases h2 : parseRun input fuel PLevel.not (skipWS input pos + 1) with
          | error e =>
            rw [h2, exc_bind_err] at h
            injection h with h
            subst h
            exact ih _ _ _ _ h2
          | ok r =>
            rw [h2, exc_bind_ok] at h
            exact ih _ _ _ _ h
        · exact Except.noConfusion h
      · rw [if_neg h1] at h
        exact Except.noConfusion h
    | not =>
      replace h : (if skipWS input pos < input.length then
          readAt input (skipWS input pos) >>= fun c =>
            if c = '!' then
              parseRun input fuel PLevel.atom (skipWS input pos + 1) >>= fun r =>
                pure ((fun f => ! r.1 f), r.2)
            else parseRun input fuel PLevel.atom (skipWS input pos)
        else parseRun input fuel PLevel.atom (skipWS input pos)) =
          Except.error (PErr.msg m) := h
      by_cases h1 : skipWS input pos < input.length
      · rw [if_pos h1] at h
        rw [readAt_ok _ _ h1, exc_bind_ok] at h
        split at h
        · cases h2 : parseRun input fuel PLevel.atom (skipWS input pos + 1) with
          | error e =>
            rw [h2, exc_bind_err] at h
            injection h with h
            subst h
            exact ih _ _ _ _ h2
          | ok r =>
            rw [h2, exc_bind_ok] at h
            exact Except.noConfusion h
        · exact ih _ _ _ _ h
      · rw [if_neg h1] at h
        exact ih _ _ _ _ h
    | atom =>
      replace h : (if skipWS input pos ≥ input.length then
          Except.error (PErr.msg ("unexpected end of expression at position " ++
            toString (skipWS input pos)))
        else
          readAt input (skipWS input pos) >>= fun c =>
            if c = '(' then
              parseRun input fuel PLevel.or (skipWS input pos + 1) >>= fun r =>
                (if skipWS input r.2 ≥ input.length then
                   Except.error (PErr.msg ("expected closing \x27)\x27 at position " ++
                     toString (skipWS input r.2)))
                 else
                   readAt input (skipWS input r.2) >>= fun c2 =>
                     if c2 = ')' then pure (r.1, skipWS input r.2 + 1)
                     else Except.error
                       (PErr.msg ("expected closing \x27)\x27 at position " ++
                         toString (skipWS input r.2))))
            else parsePrimitive input (skipWS input pos)) =
          Except.error (PErr.msg m) := h
      by_cases h1 : skipWS input pos ≥ input.length
      · rw [if_pos h1] at h
        injection h with h
        injection h with h
        subst h
        exact hasPosition_append _ _ (by decide)
      · rw [if_neg h1] at h
        rw [readAt_ok _ _ (by omega), exc_bind_ok] at h
        split at h
        · cases h2 : parseRun input fuel PLevel.or (skipWS input pos + 1) with
          | error e =>
            rw [h2, exc_bind_err] at h
            injection h with h
            subst h
            exact ih _ _ _ _ h2
          | ok r =>
            rw [h2, exc_bind_ok] at h
            by_cases h3 : skipWS input r.2 ≥ input.length
            · rw [if_pos h3] at h
              injection h with h
              injection h with h
              subst h
              exact hasPosition_append _ _ (by decide)
            · rw [if_neg h3] at h
              rw [readAt_ok _ _ (by omega), exc_bind_ok] at h
              split at h
              · exact Except.noConfusion h
              · injection h with h
                injection h with h
                subst h
                exact hasPosition_append _ _ (by decide)
        · exact parsePrimitive_positioned _ _ _ h

/-- Every message error Parse returns carries a byte offset. -/
theorem Parse_err_positioned (s : String) (m : String)
    (h : Parse s = Except.error (PErr.msg m)) : hasPosition m = true := by
  simp only [Parse] at h
  split at h
  · exact Except.noConfusion h
  · cases hp : parseOr (goTrimSpace s).data (parseFuel (goTrimSpace s).data) 0 with
    | error e =>
      rw [hp] at h
      dsimp only at h
      injection h with h
      subst h
      exact parseRun_positioned _ _ _ _ _ hp
    | ok r =>
      obtain ⟨f, p⟩ := r
      rw [hp] at h
      dsimp only at h
      split at h
      · injection h with h
        injection h with h
        subst h
        exact hasPosition_append _ _ (hasPosition_append _ _
          (hasPosition_append _ _ (by decide)))
      · exact Except.noConfusion h

theorem skipWSAux_ge : ∀ (l : List Char) (pos : Nat), pos ≤ skipWSAux l pos := by
  intro l
  induction l with
  | nil => intro pos; exact le_refl _
  | cons c rest ih =>
    intro pos
    simp only [skipWSAux]
    split
    · exact le_trans (by omega) (ih (pos + 1))
    · exact le_refl _

theorem skipWSAux_le : ∀ (l : List Char) (pos : Nat), skipWSAux l pos ≤ pos + l.length := by
  intro l
  induction l with
  | nil => intro pos; simp [skipWSAux]
  | cons c rest ih =>
    intro pos
    simp only [skipWSAux]
    split
    · have := ih (pos + 1)
      simp only [List.length_cons]
      omega
    · omega

theorem skipWS_ge (input : List Char) (pos : Nat) : pos ≤ skipWS input pos :=
  skipWSAux_ge _ _

theorem skipWS_le (input : List Char) (pos : Nat) (h : pos ≤ input.length) :
    skipWS input pos ≤ input.length := by
  have h2 := skipWSAux_le (input.drop pos) pos
  rw [List.length_drop] at h2
  unfold skipWS
  omega

theorem argEndAux_ge : ∀ (l : List Char) (pos : Nat), pos ≤ argEndAux l pos := by
  intro l
  induction l with
  | nil => intro pos; exact le_refl _
  | cons c rest ih =>
    intro pos
    simp only [argEndAux]
    split
    · exact le_refl _
    · exact le_trans (by omega) (ih (pos + 1))

theorem argEndAux_le : ∀ (l : List Char) (pos : Nat), argEndAux l pos ≤ pos + l.length := by
  intro l
  induction l with
  | nil => intro pos; simp [argEndAux]
  | cons c rest ih =>
    intro pos
    simp only [argEndAux]
    split
    · simp
    · have := ih (pos + 1)
      simp only [List.length_cons]
      omega

theorem argEnd_ge (input : List Char) (pos : Nat) : pos ≤ argEnd input pos :=
  argEndAux_ge _ _

theorem argEnd_le (input : List Char) (pos : Nat) (h : pos ≤ input.length) :
    argEnd input pos ≤ input.length := by
  have h2 := argEndAux_le (input.drop pos) pos
  rw [List.length_drop] at h2
  unfold argEnd
  omega

theorem quotedEndAux_ge : ∀ (l : List Char) (pos : Nat), pos ≤ quotedEndAux l pos := by
  intro l
  induction l with
  | nil => intro pos; exact le_refl _
  | cons c rest ih =>
    intro pos
    simp only [quotedEndAux]
    split
    · exact le_refl _
    · exact le_trans (by omega) (ih (pos + 1))

/-- Success positions of the quoted-string scanner move forward and stay in
bounds. -/
theorem parseQuoted_bounds (input : List Char) (pos : Nat) (r : String × Nat)
    (h : parseQuoted input pos = Except.ok r) : pos ≤ r.2 ∧ r.2 ≤ input.length := by
  simp only [parseQuoted] at h
  split at h
  · exact absurd h (by simp)
  · injection h with h
    subst h
    have := quotedEndAux_ge (input.drop (pos + 1)) (pos + 1)
    constructor
    · show pos ≤ quotedEnd input (pos + 1) + 1
      unfold quotedEnd
      omega
    · omega

/-- Errors of the non-fuel parser pieces are always message values. -/
theorem parseQuoted_clean (input : List Char) (pos : Nat) (e : PErr)
    (h : parseQuoted input pos = Except.error e) : ∃ m, e = PErr.msg m := by
  simp only [parseQuoted] at h
  split at h
  · injection h with h
    exact ⟨_, h.symm⟩
  · exact absurd h (by simp)

theorem parseArg_bounds (input : List Char) (pos : Nat) (r : String × Nat)
    (hlen : pos ≤ input.length)
    (h : parseArg input pos = Except.ok r) : pos ≤ r.2 ∧ r.2 ≤ input.length := by
  simp only [parseArg] at h
  split at h
  · exact absurd h (by simp)
  · rw [readAt_ok _ _ (by omega), exc_bind_ok] at h
    have hp := skipWS_ge input pos
    split at h
    · have := parseQuoted_bounds input (skipWS input pos) r h
      omega
    · split at h
      · exact absurd h (by simp)
      · injection h with h
        subst h
        have h1 := argEnd_ge input (skipWS input pos)
        have h2 := argEnd_le input (skipWS input pos) (skipWS_le input pos hlen)
        constructor
        · show pos ≤ argEnd input (skipWS input pos)
          omega
        · exact h2

theorem parseArg_clean (input : List Char) (pos : Nat) (e : PErr)
    (h : parseArg input pos = Except.error e) : ∃ m, e = PErr.msg m := by
  simp only [parseArg] at h
  split at h
  · injection h with h
    exact ⟨_, h.symm⟩
  · rw [readAt_ok _ _ (by omega), exc_bind_ok] at h
    split at h
    · exact parseQuoted_clean _ _ _ h
    · split at h
      · injection h with h
        exact ⟨_, h.symm⟩
      · exact absurd h (by simp)

theorem parsePrimitive_bounds (input : List Char) (pos : Nat) (r : Filter × Nat)
    (hlen : pos ≤ input.length)
    (h : parsePrimitive input pos = Except.ok r) : pos ≤ r.2 ∧ r.2 ≤ input.length := by
  simp only [parsePrimitive] at h
  split at h
  · exact absurd h (by simp)
  · rw [readAt_ok _ _ (by omega), exc_bind_ok] at h
    have hp := skipWS_ge input pos
    split at h
    · exact absurd h (by simp)
    · rw [readAt_ok _ _ (by omega), exc_bind_ok] at h
      cases ha : parseArg input (skipWS input (skipWS input pos + 1 + 1)) with
      | error e =>
        rw [ha, exc_bind_err] at h
        exact absurd h (by simp)
      | ok a =>
        rw [ha, exc_bind_ok] at h
        have hs1 : skipWS input pos + 1 + 1 ≤ input.length := by omega
        have hs2 := skipWS_ge input (skipWS input pos + 1 + 1)
        have ha2 := parseArg_bounds input _ a (skipWS_le _ _ hs1) ha
        obtain ⟨arg, p⟩ := a
        have hr : r.2 = p := by
          repeat' split at h
          all_goals first
            | (injection h with h; subst h; rfl)
            | exact absurd h (by simp)
        rw [hr]
        exact ⟨by omega, ha2.2⟩

theorem parsePrimitive_clean (input : List Char) (pos : Nat) (e : PErr)
    (h : parsePrimitive input pos = Except.error e) : ∃ m, e = PErr.msg m := by
  simp only [parsePrimitive] at h
  split at h
  · injection h with h
    exact ⟨_, h.symm⟩
  · rw [readAt_ok _ _ (by omega), exc_bind_ok] at h
    split at h
    · injection h with h
      exact ⟨_, h.symm⟩
    · rw [readAt_ok _ _ (by omega), exc_bind_ok] at h
      cases ha : parseArg input (skipWS input (skipWS input pos + 1 + 1)) with
      | error e2 =>
        rw [ha, exc_bind_err] at h
        injection h with h
        subst h
        exact parseArg_clean _ _ _ ha
      | ok a =>
        rw [ha, exc_bind_ok] at h
        obtain ⟨arg, p⟩ := a
        repeat' split at h
        all_goals first
          | exact Except.noConfusion h
          | (injection h with h; exact ⟨_, h.symm⟩)

/-- Success positions of the descent move forward and stay in bounds. -/
theorem parseRun_bounds : ∀ (fuel : Nat) (input : List Char) (lvl : PLevel)
    (pos : Nat) (r : Filter × Nat), pos ≤ input.length →
    parseRun input fuel lvl pos = Except.ok r → pos ≤ r.2 ∧ r.2 ≤ input.length := by
  intro fuel
  induction fuel with
  | zero =>
    intro input lvl pos r _ h
    cases lvl <;> exact absurd h (by simp [parseRun])
  | succ fuel ih =>
    intro input lvl pos r hlen h
    cases lvl with
    | or =>
      simp only [parseRun] at h
      cases h1 : parseRun input fuel PLevel.and pos with
      | error e =>
        rw [h1, exc_bind_err] at h
        exact absurd h (by simp)
      | ok r1 =>
        rw [h1, exc_bind_ok] at h
        have b1 := ih input PLevel.and pos r1 hlen h1
        have b2 := ih input (PLevel.orLoop r1.1) r1.2 r b1.2 h
        exact ⟨le_trans b1.1 b2.1, b2.2⟩
    | orLoop left =>
      simp only [parseRun] at h
      have hp := skipWS_ge input pos
      have hple := skipWS_le input pos hlen
      split at h
      · rw [readAt_ok _ _ (by omega), exc_bind_ok] at h
        split at h
        · cases h1 : parseRun input fuel PLevel.and (skipWS input pos + 1) with
          | error e =>
            rw [h1, exc_bind_err] at h
            exact absurd h (by simp)
          | ok r1 =>
            rw [h1, exc_bind_ok] at h
            have b1 := ih input PLevel.and _ r1 (by omega) h1
            have b2 := ih input (PLevel.orLoop _) r1.2 r b1.2 h
            exact ⟨by omega, b2.2⟩
        · injection h with h
          subst h
          exact ⟨hp, hple⟩
      · injection h with h
        subst h
        exact ⟨hp, hple⟩
    | and =>
      simp only [parseRun] at h
      cases h1 : parseRun input fuel PLevel.not pos with
      | error e =>
        rw [h1, exc_bind_err] at h
        exact absurd h (by simp)
      | ok r1 =>
        rw [h1, exc_bind_ok] at h
        have b1 := ih input PLevel.not pos r1 hlen h1
        have b2 := ih input (PLevel.andLoop r1.1) r1.2 r b1.2 h
        exact ⟨le_trans b1.1 b2.1, b2.2⟩
    | andLoop left =>
      simp only [parseRun] at h
      have hp := skipWS_ge input pos
      have hple := skipWS_le input pos hlen
      split at h
      · rw [readAt_ok _ _ (by omega), exc_bind_ok] at h
        split at h
        · cases h1 : parseRun input fuel PLevel.not (skipWS input pos + 1) with
          | error e =>
            rw [h1, exc_bind_err] at h
            exact absurd h (by simp)
          | ok r1 =>
            rw [h1, exc_bind_ok] at h
            have b1 := ih input PLevel.not _ r1 (by omega) h1
            have b2 := ih input (PLevel.andLoop _) r1.2 r b1.2 h
            exact ⟨by omega, b2.2⟩
        · injection h with h
          subst h
          exact ⟨hp, hple⟩
      · injection h with h
        subst h
        exact ⟨hp, hple⟩
    | not =>
      simp only [parseRun] at h
      have hp := skipWS_ge input pos
      have hple := skipWS_le input pos hlen
      split at h
      · rw [readAt_ok _ _ (by omega), exc_bind_ok] at h
        split at h
        · cases h1 : parseRun input fuel PLevel.atom (skipWS input pos + 1) with
          | error e =>
            rw [h1, exc_bind_err] at h
            exact absurd h (by simp)
          | ok r1 =>
            rw [h1, exc_bind_ok] at h
            injection h with h
            subst h
            have b1 := ih input PLevel.atom _ r1 (by omega) h1
            exact ⟨by simp; omega, b1.2⟩
        · have b1 := ih input PLevel.atom _ r (by omega) h
          exact ⟨le_trans hp b1.1, b1.2⟩
      · have b1 := ih input PLevel.atom _ r hple h
        exact ⟨le_trans hp b1.1, b1.2⟩
    | atom =>
      simp only [parseRun] at h
      have hp := skipWS_ge input pos
      split at h
      · exact absurd h (by simp)
      · rw [readAt_ok _ _ (by omega), exc_bind_ok] at h
        split at h
        · cases h1 : parseRun input fuel PLevel.or (skipWS input pos + 1) with
          | error e =>
            rw [h1, exc_bind_err] at h
            exact absurd h (by simp)
          | ok r1 =>
            rw [h1, exc_bind_ok] at h
            have b1 := ih input PLevel.or _ r1 (by omega) h1
            have hp2 := skipWS_ge input r1.2
            split at h
            · exact absurd h (by simp)
            · rw [readAt_ok _ _ (by omega), exc_bind_ok] at h
              split at h
              · injection h with h
                subst h
                refine ⟨?_, by simp; omega⟩
                simp
                omega
              · exact absurd h (by simp)
        · have b1 := parsePrimitive_bounds input _ r (by omega) h
          exact ⟨le_trans hp b1.1, b1.2⟩

theorem pure_ne_error {α : Type} (a : α) (e : PErr) :
    (pure a : Except PErr α) ≠ Except.error e := fun h => Except.noConfusion h

theorem msg_ne_fuelOut {α : Type} (s : String) :
    (Except.error (PErr.msg s) : Except PErr α) ≠ Except.error PErr.fuelOut := by
  intro h
  injection h with h
  exact PErr.noConfusion h

theorem notFuelOut_of_clean {α : Type} (x : Except PErr α)
    (hx : ∀ e, x = Except.error e → ∃ m, e = PErr.msg m) :
    x ≠ Except.error PErr.fuelOut := by
  intro h
  obtain ⟨m, hm⟩ := hx _ h
  exact PErr.noConfusion hm

/-- With fuel at least the level bound, the descent never exhausts it:
every grammar cycle consumes at least one byte. -/
theorem parseRun_no_fuelOut : ∀ (fuel : Nat) (input : List Char) (lvl : PLevel)
    (pos : Nat), pos ≤ input.length →
    levelFuel lvl + 5 * (input.length - pos) ≤ fuel →
    parseRun input fuel lvl pos ≠ Except.error PErr.fuelOut := by
  intro fuel
  induction fuel with
  | zero =>
    intro input lvl pos _ hbound
    cases lvl <;> simp [levelFuel] at hbound
  | succ fuel ih =>
    intro input lvl pos hlen hbound
    cases lvl with
    | or =>
      simp only [parseRun]
      cases h1 : parseRun input fuel PLevel.and pos with
      | error e =>
        rw [exc_bind_err]
        intro hcontra
        injection hcontra with hc
        rw [hc] at h1
        exact ih input PLevel.and pos hlen (by simp [levelFuel] at hbound ⊢; omega) h1
      | ok r1 =>
        rw [exc_bind_ok]
        have b1 := parseRun_bounds fuel input PLevel.and pos r1 hlen h1
        exact ih input (PLevel.orLoop r1.1) r1.2 b1.2
          (by simp [levelFuel] at hbound ⊢; omega)
    | orLoop left =>
      simp only [parseRun]
      have hp := skipWS_ge input pos
      have hple := skipWS_le input pos hlen
      split
      · rw [readAt_ok _ _ (by omega), exc_bind_ok]
        split
        · cases h1 : parseRun input fuel PLevel.and (skipWS input pos + 1) with
          | error e =>
            rw [exc_bind_err]
            intro hcontra
            injection hcontra with hc
            rw [hc] at h1
            exact ih input PLevel.and _ (by omega) (by simp [levelFuel] at hbound ⊢; omega) h1
          | ok r1 =>
            rw [exc_bind_ok]
            have b1 := parseRun_bounds fuel input PLevel.and _ r1 (by omega) h1
            exact ih input (PLevel.orLoop _) r1.2 b1.2
              (by simp [levelFuel] at hbound ⊢; omega)
        · exact pure_ne_error _ _
      · exact pure_ne_error _ _
    | and =>
      simp only [parseRun]
      cases h1 : parseRun input fuel PLevel.not pos with
      | error e =>
        rw [exc_bind_err]
        intro hcontra
        injection hcontra with hc
        rw [hc] at h1
        exact ih input PLevel.not pos hlen (by simp [levelFuel] at hbound ⊢; omega) h1
      | ok r1 =>
        rw [exc_bind_ok]
        have b1 := parseRun_bounds fuel input PLevel.not pos r1 hlen h1
        exact ih input (PLevel.andLoop r1.1) r1.2 b1.2
          (by simp [levelFuel] at hbound ⊢; omega)
    | andLoop left =>
      simp only [parseRun]
      have hp := skipWS_ge input pos
      have hple := skipWS_le input pos hlen
      split
      · rw [readAt_ok _ _ (by omega), exc_bind_ok]
        split
        · cases h1 : parseRun input fuel PLevel.not (skipWS input pos + 1) with
          | error e =>
            rw [exc_bind_err]
            intro hcontra
            injection hcontra with hc
            rw [hc] at h1
            exact ih input PLevel.not _ (by omega) (by simp [levelFuel] at hbound ⊢; omega) h1
          | ok r1 =>
            rw [exc_bind_ok]
            have b1 := parseRun_bounds fuel input PLevel.not _ r1 (by omega) h1
            exact ih input (PLevel.andLoop _) r1.2 b1.2
              (by simp [levelFuel] at hbound ⊢; omega)
        · exact pure_ne_error _ _
      · exact pure_ne_error _ _
    | not =>
      simp only [parseRun]
      have hp := skipWS_ge input pos
      have hple := skipWS_le input pos hlen
      split
      · rw [readAt_ok _ _ (by omega), exc_bind_ok]
        split
        · cases h1 : parseRun input fuel PLevel.atom (skipWS input pos + 1) with
          | error e =>
            rw [exc_bind_err]
            intro hcontra
            injection hcontra with hc
            rw [hc] at h1
            exact ih input PLevel.atom _ (by omega) (by simp [levelFuel] at hbound ⊢; omega) h1
          | ok r1 =>
            rw [exc_bind_ok]
            exact pure_ne_error _ _
        · exact ih input PLevel.atom _ (by omega) (by simp [levelFuel] at hbound ⊢; omega)
      · exact ih input PLevel.atom _ hple (by simp [levelFuel] at hbound ⊢; omega)
    | atom =>
      simp only [parseRun]
      have hp := skipWS_ge input pos
      split
      · exact msg_ne_fuelOut _
      · rw [readAt_ok _ _ (by omega), exc_bind_ok]
        split
        · cases h1 : parseRun input fuel PLevel.or (skipWS input pos + 1) with
          | error e =>
            rw [exc_bind_err]
            intro hcontra
            injection hcontra with hc
            rw [hc] at h1
            exact ih input PLevel.or _ (by omega) (by simp [levelFuel] at hbound ⊢; omega) h1
          | ok r1 =>
            rw [exc_bind_ok]
            split
            · exact msg_ne_fuelOut _
            · rw [readAt_ok _ _ (by omega), exc_bind_ok]
              split
              · exact pure_ne_error _ _
              · exact msg_ne_fuelOut _
        · exact notFuelOut_of_clean _ fun e he =>
            parsePrimitive_clean input _ e he

/-- The fuel Parse supplies is always sufficient. -/
theorem Parse_no_fuelOut (s : String) : Parse s ≠ Except.error PErr.fuelOut := by
  simp only [Parse]
  split
  · exact fun h => Except.noConfusion h
  · cases h : parseOr (goTrimSpace s).data (parseFuel (goTrimSpace s).data) 0 with
    | error e =>
      have hp := parseRun_no_fuelOut (parseFuel (goTrimSpace s).data)
        (goTrimSpace s).data PLevel.or 0 (by omega)
        (by simp [levelFuel, parseFuel]; omega)
      rw [show parseOr (goTrimSpace s).data (parseFuel (goTrimSpace s).data) 0 =
        parseRun (goTrimSpace s).data (parseFuel (goTrimSpace s).data) PLevel.or 0
        from rfl] at h
      rw [h] at hp
      dsimp only
      intro hcontra
      injection hcontra with hc2
      rw [hc2] at hp
      exact hp rfl
    | ok r =>
      obtain ⟨f, p⟩ := r
      dsimp only
      split
      · exact msg_ne_fuelOut _
      · exact fun h => Except.noConfusion h

/-- Totality summary: on every input, Parse yields a compiled predicate or
an error message value, exactly the two outcomes the Go function has. -/
theorem Parse_ok_or_msg (s : String) :
    (∃ f, Parse s = Except.ok f) ∨ (∃ m, Parse s = Except.error (PErr.msg m)) := by
  cases h : Parse s with
  | ok f => exact Or.inl ⟨f, rfl⟩
  | error e =>
    cases e with
    | msg m => exact Or.inr ⟨m, rfl⟩
    | panicked => exact absurd h (Parse_no_panic s)
    | fuelOut => exact absurd h (Parse_no_fuelOut s)

end HttpProxy
